import Mathlib

/-!
Verification development for the gutenbird card-sheet generator.

The Python sources (`bird.py`, `cardmaker.py`) are shallowly embedded below:
pure functions become Lean functions, the mutable `xml.etree.ElementTree`
document is an explicit tree (`Elem`) with element references modelled as
child-index paths, and fallible operations return `Option`.
-/

set_option maxRecDepth 4000

/-! ### Generic list helpers (model Python in-place list/dict updates) -/

/-- Apply `f` to the element at index `i`, leaving the list unchanged when
`i` is out of range (models in-place mutation of one list element). -/
def modifyAt : List α → Nat → (α → α) → List α
  | [], _, _ => []
  | a :: as, 0, f => f a :: as
  | a :: as, n + 1, f => a :: modifyAt as n f

/-- Overwrite the element at index `i` (in-place assignment `l[i] = x`). -/
def setAt (l : List α) (i : Nat) (x : α) : List α := modifyAt l i (fun _ => x)

@[simp] theorem modifyAt_nil (i : Nat) (f : α → α) : modifyAt ([] : List α) i f = [] := rfl

@[simp] theorem length_modifyAt (l : List α) (i : Nat) (f : α → α) :
    (modifyAt l i f).length = l.length := by
  induction l generalizing i with
  | nil => rfl
  | cons a as ih => cases i <;> simp [modifyAt, ih]

theorem modifyAt_id (l : List α) (i : Nat) : modifyAt l i (fun x => x) = l := by
  induction l generalizing i with
  | nil => rfl
  | cons a as ih => cases i <;> simp [modifyAt, ih]

theorem modifyAt_modifyAt (l : List α) (i : Nat) (f g : α → α) :
    modifyAt (modifyAt l i f) i g = modifyAt l i (fun x => g (f x)) := by
  induction l generalizing i with
  | nil => rfl
  | cons a as ih => cases i <;> simp [modifyAt, ih]

theorem getD_modifyAt_same (l : List α) (i : Nat) (f : α → α) (d : α) (h : i < l.length) :
    (modifyAt l i f).getD i d = f (l.getD i d) := by
  induction l generalizing i with
  | nil => simp at h
  | cons a as ih =>
    cases i with
    | zero => simp [modifyAt]
    | succ n => simp only [modifyAt, List.getD_cons_succ]; exact ih n (by simpa using h)

theorem getD_modifyAt_ne (l : List α) (i j : Nat) (f : α → α) (d : α) (h : j ≠ i) :
    (modifyAt l i f).getD j d = l.getD j d := by
  induction l generalizing i j with
  | nil => rfl
  | cons a as ih =>
    cases i with
    | zero =>
      cases j with
      | zero => exact absurd rfl h
      | succ m => simp [modifyAt]
    | succ n =>
      cases j with
      | zero => simp [modifyAt]
      | succ m =>
        simp only [modifyAt, List.getD_cons_succ]
        exact ih n m (by omega)

theorem mem_modifyAt (l : List α) (i : Nat) (f : α → α) (y : α) (h : y ∈ modifyAt l i f) :
    y ∈ l ∨ ∃ x, x ∈ l ∧ y = f x := by
  induction l generalizing i with
  | nil => simp [modifyAt] at h
  | cons a as ih =>
    cases i with
    | zero =>
      rcases List.mem_cons.mp h with h | h
      · exact Or.inr ⟨a, by simp, h⟩
      · exact Or.inl (List.mem_cons_of_mem _ h)
    | succ n =>
      rcases List.mem_cons.mp h with h | h
      · exact Or.inl (by simp [h])
      · rcases ih n h with h' | ⟨x, hx, hy⟩
        · exact Or.inl (List.mem_cons_of_mem _ h')
        · exact Or.inr ⟨x, List.mem_cons_of_mem _ hx, hy⟩

theorem map_modifyAt (l : List α) (i : Nat) (f : α → α) (g : α → β)
    (hfg : ∀ x, g (f x) = g x) : (modifyAt l i f).map g = l.map g := by
  induction l generalizing i with
  | nil => rfl
  | cons a as ih => cases i <;> simp [modifyAt, hfg, ih]

/-- Equality of lists from equal lengths and pointwise-equal `getD` values. -/
theorem eq_of_getD (l₁ l₂ : List α) (d : α) (hlen : l₁.length = l₂.length)
    (h : ∀ i, i < l₁.length → l₁.getD i d = l₂.getD i d) : l₁ = l₂ := by
  induction l₁ generalizing l₂ with
  | nil => cases l₂ with
    | nil => rfl
    | cons b bs => simp at hlen
  | cons a as ih =>
    cases l₂ with
    | nil => simp at hlen
    | cons b bs =>
      have h0 := h 0 (by simp)
      simp only [List.getD_cons_zero] at h0
      subst h0
      have := ih bs (by simpa using hlen) (fun i hi => by
        have := h (i + 1) (by simpa using Nat.succ_lt_succ hi)
        simpa using this)
      rw [this]

/-- Ordered association list lookup (first match wins, like a Python dict read). -/
def lookupKey : List (String × α) → String → Option α
  | [], _ => none
  | (k', v) :: rest, k => if k' = k then some v else lookupKey rest k

/-- Ordered association list write: update the first existing binding in place,
else append (Python dict assignment preserves insertion order). -/
def setKey : List (String × α) → String → α → List (String × α)
  | [], k, v => [(k, v)]
  | (k', v') :: rest, k, v => if k' = k then (k, v) :: rest else (k', v') :: setKey rest k v

/-! ### String helpers mirroring the Python string operations used -/

/-- `needle` occurs at the start of `hay` (`str.startswith` on char lists). -/
def startsWithL : List Char → List Char → Bool
  | [], _ => true
  | _ :: _, [] => false
  | a :: as, b :: bs => a = b && startsWithL as bs

/-- `needle in hay` — Python substring containment. -/
def hasSubL (needle : List Char) : List Char → Bool
  | [] => startsWithL needle []
  | c :: rest => startsWithL needle (c :: rest) || hasSubL needle rest

/-- `needle in hay` on strings. -/
def hasSub (needle hay : String) : Bool := hasSubL needle.data hay.data

/-- `s.endswith(suffix)`. -/
def pyEndsWith (s suffix : String) : Bool := startsWithL suffix.data.reverse s.data.reverse

/-- Python's default `str.strip` whitespace set. -/
def pyIsSpace (c : Char) : Bool :=
  c = ' ' || c = '\t' || c = '\n' || c = '\r' || c = '\x0b' || c = '\x0c'

/-- `s.strip()`. -/
def pyStrip (s : String) : String :=
  String.mk (((s.data.dropWhile pyIsSpace).reverse.dropWhile pyIsSpace).reverse)

/-- `s.lower()` (ASCII case folding; the marker scan only involves ASCII). -/
def pyLower (s : String) : String := String.mk (s.data.map Char.toLower)

/-- `s.replace(pat, rep)`: left-to-right, non-overlapping replacement of every
occurrence. The fuel argument (initially the text length) only serves
structural termination: every step consumes at least one character, so the
fuel never runs out. The empty-pattern case never arises at the call sites
(the pattern is always the fixed color literal). -/
def replaceAllL (pat rep : List Char) : Nat → List Char → List Char
  | _, [] => []
  | 0, l => l
  | fuel + 1, c :: rest =>
    if pat ≠ [] ∧ startsWithL pat (c :: rest) = true then
      rep ++ replaceAllL pat rep fuel ((c :: rest).drop pat.length)
    else
      c :: replaceAllL pat rep fuel rest

/-- `s.replace(pat, rep)` on strings. -/
def pyReplace (s pat rep : String) : String :=
  String.mk (replaceAllL pat.data rep.data s.data.length s.data)

/-- `f"{i:03d}"` for a non-negative integer: decimal digits left-padded with
zeros to width three. -/
def pad3 (i : Nat) : String :=
  let s := toString i
  String.mk (List.replicate (3 - s.length) '0') ++ s

/-! ### The XML document model (`xml.etree.ElementTree`)

An element has a tag, an insertion-ordered attribute dict, optional `.text`
and `.tail` strings, and a list of child elements. Live element references
held by tokens are modelled as child-index paths from the root. -/

inductive Elem : Type where
  | mk (tag : String) (attrib : List (String × String)) (text : Option String)
       (tail : Option String) (children : List Elem)
deriving Repr

def Elem.tag : Elem → String
  | .mk t _ _ _ _ => t

def Elem.attrib : Elem → List (String × String)
  | .mk _ a _ _ _ => a

def Elem.text : Elem → Option String
  | .mk _ _ x _ _ => x

def Elem.tail : Elem → Option String
  | .mk _ _ _ tl _ => tl

def Elem.children : Elem → List Elem
  | .mk _ _ _ _ cs => cs

def Elem.withChildren : Elem → List Elem → Elem
  | .mk t a x tl _, cs => .mk t a x tl cs

def Elem.withText : Elem → Option String → Elem
  | .mk t a _ tl cs, x => .mk t a x tl cs

/-- `Element.clear()`: removes all subelements, clears all attributes, and
sets text and tail to `None`. -/
def Elem.clear : Elem → Elem
  | .mk t _ _ _ _ => .mk t [] none none []

/-- `element.set(key, value)`. -/
def Elem.setAttr : Elem → String → String → Elem
  | .mk t a x tl cs, k, v => .mk t (setKey a k v) x tl cs

/-- `element.get(key)`. -/
def Elem.getAttr (e : Elem) (k : String) : Option String := lookupKey e.attrib k

/-- Child at index `i` (defaulting out of range; paths produced by the
tokenizer are always in range). -/
def Elem.childAt (e : Elem) (i : Nat) : Elem :=
  e.children.getD i (Elem.mk "" [] none none [])

@[simp] theorem Elem.tag_mk (t : String) (a : List (String × String)) (x tl : Option String)
    (cs : List Elem) : (Elem.mk t a x tl cs).tag = t := rfl

@[simp] theorem Elem.attrib_mk (t : String) (a : List (String × String)) (x tl : Option String)
    (cs : List Elem) : (Elem.mk t a x tl cs).attrib = a := rfl

@[simp] theorem Elem.text_mk (t : String) (a : List (String × String)) (x tl : Option String)
    (cs : List Elem) : (Elem.mk t a x tl cs).text = x := rfl

@[simp] theorem Elem.tail_mk (t : String) (a : List (String × String)) (x tl : Option String)
    (cs : List Elem) : (Elem.mk t a x tl cs).tail = tl := rfl

@[simp] theorem Elem.children_mk (t : String) (a : List (String × String)) (x tl : Option String)
    (cs : List Elem) : (Elem.mk t a x tl cs).children = cs := rfl

@[simp] theorem Elem.childAt_mk (t : String) (a : List (String × String)) (x tl : Option String)
    (cs : List Elem) (j : Nat) :
    (Elem.mk t a x tl cs).childAt j = cs.getD j (Elem.mk "" [] none none []) := rfl

/-- Follow a child-index path and rewrite the element it designates. An
invalid step leaves the tree unchanged. -/
def updateAtPath : Elem → List Nat → (Elem → Elem) → Elem
  | e, [], f => f e
  | e, i :: rest, f => e.withChildren (modifyAt e.children i (fun c => updateAtPath c rest f))

/-- Element designated by a path. -/
def elemAtPath : Elem → List Nat → Elem
  | e, [] => e
  | e, i :: rest => elemAtPath (e.childAt i) rest

/-! ### `bird.py` tokenizer: predicates and text extraction -/

def xlinkHref : String := "\x7bhttp://www.w3.org/1999/xlink\x7dhref"

/-- `_is_group_element`: tag ends with `'g'`. -/
def _is_group_element (e : Elem) : Bool := pyEndsWith e.tag "g"

/-- `_is_text_element`: tag ends with `'text'`. -/
def _is_text_element (e : Elem) : Bool := pyEndsWith e.tag "text"

/-- `_is_image_element`: tag ends with `'image'`. -/
def _is_image_element (e : Elem) : Bool := pyEndsWith e.tag "image"

mutual
/-- `element.itertext()` joined: own text, then each child's itertext followed
by that child's tail. -/
def itertext : Elem → String
  | .mk _ _ x _ cs => x.getD "" ++ itertextL cs
def itertextL : List Elem → String
  | [] => ""
  | c :: cs => itertext c ++ c.tail.getD "" ++ itertextL cs
end

/-- `_extract_text_content`: flattened text, stripped. -/
def _extract_text_content (e : Elem) : String := pyStrip (itertext e)

/-- `_extract_image_href`: `xlink:href` first, then `href`, default `''`. -/
def _extract_image_href (e : Elem) : String :=
  match e.getAttr xlinkHref with
  | some h => h
  | none => (e.getAttr "href").getD ""

/-- `_contains_target_identifier`: `'txt' in text.lower()`. -/
def _contains_target_identifier (text : String) : Bool := hasSub "txt" (pyLower text)

def attrsString : List (String × String) → String
  | [] => ""
  | (k, v) :: rest => " " ++ k ++ "=\"" ++ v ++ "\"" ++ attrsString rest

mutual
/-- `ET.tostring(element, encoding='unicode')`, simplified: the exact escaping
of the serializer is immaterial here because no claim inspects the payload of
an `"other"` token. -/
def tostring : Elem → String
  | .mk t a x tl cs =>
    "<" ++ t ++ attrsString a ++ ">" ++ x.getD "" ++ tostringL cs ++ "</" ++ t ++ ">"
      ++ tl.getD ""
def tostringL : List Elem → String
  | [] => ""
  | c :: cs => tostring c ++ tostringL cs
end

/-- `is_eligible_group` (local to `_find_eligible_groups`): no direct child
group; at least one direct text child whose flattened content contains the
marker, and (checked on non-text children) at least one direct image child. -/
def is_eligible_group (g : Elem) : Bool :=
  (!g.children.any _is_group_element) &&
  (g.children.any (fun c =>
      _is_text_element c && _contains_target_identifier (_extract_text_content c))) &&
  (g.children.any (fun c => !_is_text_element c && _is_image_element c))

mutual
/-- `traverse_groups` (local to `_find_eligible_groups`): walk the children;
a group child is collected when eligible and is recursed into; non-group
children are not recursed into. Each collected group is returned with the
path that models the live element reference. -/
def traverse_groups : Elem → List Nat → List (List Nat × Elem)
  | .mk _ _ _ _ cs, path => traverse_children cs path 0
def traverse_children : List Elem → List Nat → Nat → List (List Nat × Elem)
  | [], _, _ => []
  | c :: cs, path, i =>
    (if _is_group_element c then
      (if is_eligible_group c then [(path ++ [i], c)] else []) ++ traverse_groups c (path ++ [i])
     else []) ++ traverse_children cs path (i + 1)
end

/-- `_find_eligible_groups`. -/
def _find_eligible_groups (root : Elem) : List (List Nat × Elem) := traverse_groups root []

/-! Specification-side traversals used to state claim C1. -/

mutual
/-- All group-tagged proper descendants of the root, in document (pre-)order —
the domain the claim's "a group is discovered iff ..." quantifies over. -/
def allGroupsE : Elem → List Elem
  | .mk _ _ _ _ cs => allGroupsL cs
def allGroupsL : List Elem → List Elem
  | [] => []
  | c :: cs => (if _is_group_element c then [c] else []) ++ allGroupsE c ++ allGroupsL cs
end

mutual
/-- Group-tagged elements reachable from the root through a chain of
group-tagged elements, in pre-order: the domain the traversal actually
visits. -/
def chainGroupsE : Elem → List Elem
  | .mk _ _ _ _ cs => chainGroupsL cs
def chainGroupsL : List Elem → List Elem
  | [] => []
  | c :: cs => (if _is_group_element c then c :: chainGroupsE c else []) ++ chainGroupsL cs
end

/-! ### `bird.py` tokenizer: tokens, parsing, modification -/

/-- `SVGToken` (the `element` back-reference is a path into the document
tree; `original_content` is fixed to `content` at construction by
`__post_init__`). -/
structure SVGToken where
  type : String
  content : String
  elemPath : List Nat
  position : Nat
  original_content : String
deriving Repr, DecidableEq

instance : Inhabited SVGToken := ⟨⟨"other", "", [], 0, ""⟩⟩

/-- `GroupMatch`. -/
structure GroupMatch where
  elemPath : List Nat
  tokens : List SVGToken
  position : Nat
  group_id : String
deriving Repr, DecidableEq

instance : Inhabited GroupMatch := ⟨⟨[], [], 0, ""⟩⟩

/-- The mutable tokenizer state after `parse_and_tokenize`: the document tree
and the matched groups. -/
structure TokState where
  root : Elem
  groups : List GroupMatch

/-- `_create_token_from_element` (every branch returns a token, so each child
yields one token and `position` equals the child index). -/
def _create_token_from_element (c : Elem) (path : List Nat) (position : Nat) : SVGToken :=
  if _is_text_element c then
    let text_content := _extract_text_content c
    let token_type := if _contains_target_identifier text_content then "label" else "other"
    { type := token_type, content := text_content, elemPath := path, position := position,
      original_content := text_content }
  else if _is_image_element c then
    let href := _extract_image_href c
    { type := "image", content := href, elemPath := path, position := position,
      original_content := href }
  else
    let content := tostring c
    { type := "other", content := content, elemPath := path, position := position,
      original_content := content }

/-- `_tokenize_group`. -/
def _tokenize_group (g : Elem) (base : List Nat) : List SVGToken :=
  g.children.enum.map (fun p => _create_token_from_element p.2 (base ++ [p.1]) p.1)

/-- `parse_and_tokenize` on an already-parsed tree: discover eligible groups,
tokenize each, and assign positions and `group_{i:03d}` identifiers in
discovery order. -/
def parse_and_tokenize (root : Elem) : TokState :=
  { root := root,
    groups := (_find_eligible_groups root).enum.map (fun p =>
      { elemPath := p.2.1, tokens := _tokenize_group p.2.2 p.2.1, position := p.1,
        group_id := "group_" ++ pad3 p.1 }) }

/-- Index of the first element satisfying `p` (models taking the first
element of a Python list comprehension filter). -/
def firstIdxWhere (p : α → Bool) : List α → Option Nat
  | [] => none
  | a :: as =>
    if p a then some 0 else
      match firstIdxWhere p as with
      | some i => some (i + 1)
      | none => none

/-- The style-normalization applied while "preserving" attributes:
`#008080` inside a `style` value becomes `#000000`. -/
def normStyleValue (k v : String) : String :=
  if k = "style" && hasSub "#008080" v then pyReplace v "#008080" "#000000" else v

/-- The tspan branch of `_modify_text_token` (`i` is the index of the first
tspan child): clear the tspan and set its text; then the "preserve text
element attributes, replacing #008080 with #000000 in style" loop, which in
the source reads and writes `text_element[0]` — the first CHILD's
attributes; then the "preserve tspan attributes" loop, which re-sets each
current attribute of the (now cleared) tspan onto itself. -/
def _modify_text_token_tspan (e : Elem) (new_content : String) (i : Nat) : Elem :=
  let e1 := e.withChildren (modifyAt e.children i
    (fun c => (Elem.clear c).withText (some new_content)))
  let e2 := e1.withChildren (modifyAt e1.children 0 (fun c0 =>
    c0.attrib.foldl (fun acc kv => acc.setAttr kv.1 (normStyleValue kv.1 kv.2)) c0))
  e2.withChildren (modifyAt e2.children i (fun ft =>
    ft.attrib.foldl (fun acc kv => acc.setAttr kv.1 kv.2) ft))

/-- The fallback branch of `_modify_text_token` (no tspan child): store the
attributes, clear the element, set its text, restore the attributes. -/
def _modify_text_token_fallback (e : Elem) (new_content : String) : Elem :=
  let original_attribs := e.attrib
  let ecl := (Elem.clear e).withText (some new_content)
  original_attribs.foldl (fun acc kv => acc.setAttr kv.1 kv.2) ecl

/-- `_modify_text_token` acting on the referenced element. -/
def _modify_text_token (e : Elem) (new_content : String) : Elem :=
  match firstIdxWhere (fun c => pyEndsWith c.tag "tspan") e.children with
  | some i => _modify_text_token_tspan e new_content i
  | none => _modify_text_token_fallback e new_content

/-- `_modify_image_token`: overwrite `xlink:href` when present, else `href`. -/
def _modify_image_token (e : Elem) (new_content : String) : Elem :=
  if (lookupKey e.attrib xlinkHref).isSome then e.setAttr xlinkHref new_content
  else e.setAttr "href" new_content

/-- `modify_token`: mutate the referenced document node according to the
token kind, then record the new content on the token. None of the element
operations above can fail on a well-formed tree, so the `except` branch of
the source (print + `return False`) is unreachable and the call always
returns `True`. -/
def modify_token (st : TokState) (g t : Nat) (new_content : String) : TokState :=
  let tok := ((st.groups.getD g default).tokens.getD t default)
  let root' :=
    if tok.type = "label" then
      updateAtPath st.root tok.elemPath (fun e => _modify_text_token e new_content)
    else if tok.type = "image" then
      updateAtPath st.root tok.elemPath (fun e => _modify_image_token e new_content)
    else
      -- `_modify_other_token` is a no-op on the tree
      st.root
  { root := root',
    groups := modifyAt st.groups g (fun gm =>
      { gm with tokens := modifyAt gm.tokens t (fun tk => { tk with content := new_content }) }) }

/-- `get_group_by_position`: first group whose `position` field matches. -/
def get_group_by_position (st : TokState) (position : Nat) : Option GroupMatch :=
  st.groups.find? (fun g => g.position == position)

/-- Index in `matched_groups` of the group `get_group_by_position` returns
(the source mutates the found group's token objects; the index of the first
match addresses the same tokens here). -/
def group_index_of_position (st : TokState) (position : Nat) : Nat :=
  st.groups.findIdx (fun g => g.position == position)

/-- `modify_group_labels`: `False` without any mutation when no group sits at
`group_position`; otherwise modify every `"label"` token of that group. -/
def modify_group_labels (st : TokState) (group_position : Nat) (new_label : String) :
    Bool × TokState :=
  match get_group_by_position st group_position with
  | none => (false, st)
  | some g =>
    let gi := group_index_of_position st group_position
    (true,
      (List.range g.tokens.length).foldl (fun s t =>
        if (g.tokens.getD t default).type = "label" then modify_token s gi t new_label else s) st)

/-- `modify_group_images`: same shape for `"image"` tokens. -/
def modify_group_images (st : TokState) (group_position : Nat) (new_image_href : String) :
    Bool × TokState :=
  match get_group_by_position st group_position with
  | none => (false, st)
  | some g =>
    let gi := group_index_of_position st group_position
    (true,
      (List.range g.tokens.length).foldl (fun s t =>
        if (g.tokens.getD t default).type = "image" then modify_token s gi t new_image_href else s) st)

/-- Token at indices `(g, t)` (used by the reset loop to read current
content). -/
def getToken (st : TokState) (g t : Nat) : SVGToken :=
  (st.groups.getD g default).tokens.getD t default

/-- Number of tokens of group `g` in the current state. -/
def tokensLength (st : TokState) (g : Nat) : Nat :=
  (st.groups.getD g default).tokens.length

/-- Inner loop of `reset_modifications`: walk the tokens of group `gi` from
index `t`, `count` of them, restoring `original_content` via `modify_token`
whenever `content` differs. -/
def reset_token_loop (gi : Nat) : Nat → Nat → TokState → TokState
  | _, 0, st => st
  | t, c + 1, st =>
    let tok := getToken st gi t
    let st' := if tok.content ≠ tok.original_content
      then modify_token st gi t tok.original_content else st
    reset_token_loop gi (t + 1) c st'

/-- Outer loop of `reset_modifications` over the groups. -/
def reset_group_loop : Nat → Nat → TokState → TokState
  | _, 0, st => st
  | g, c + 1, st => reset_group_loop (g + 1) c (reset_token_loop g 0 (tokensLength st g) st)

/-- `reset_modifications`. -/
def reset_modifications (st : TokState) : TokState :=
  reset_group_loop 0 st.groups.length st

/-- A finite sequence of `modify_token` calls `(group, token, newContent)`. -/
def applyCalls (st : TokState) (calls : List (Nat × Nat × String)) : TokState :=
  calls.foldl (fun s c => modify_token s c.1 c.2.1 c.2.2) st

/-- The matrix of current token contents. -/
def tokenContents (st : TokState) : List (List String) :=
  st.groups.map (fun g => g.tokens.map (fun t => t.content))

/-- The matrix of recorded original contents. -/
def tokenOriginals (st : TokState) : List (List String) :=
  st.groups.map (fun g => g.tokens.map (fun t => t.original_content))

/-! ### `cardmaker.py` layout engine: data model -/

/-- The `_meta` record attached by `annotate_sets_with_meta` /
`build_placeholder_card`. -/
structure Meta where
  set : Option String
  set_index : Option Nat
  card_index : Option Int
  copy_index : Option Int
  global_index : Option Int
  copies : Option Int
  placeholder : Bool
deriving Repr, DecidableEq

/-- `meta.get(...)` defaults when an item carries no `_meta` dict. -/
def defaultMeta : Meta :=
  { set := none, set_index := none, card_index := none, copy_index := none,
    global_index := none, copies := none, placeholder := false }

/-- An item dict: label, embeddable image reference, optional `_meta`
(other keys such as `original_name` are carried along unchanged and never
read by the layout engine). -/
structure Item where
  label : String
  image : String
  meta : Option Meta
deriving Repr, DecidableEq

instance : Inhabited Item := ⟨⟨"", "", none⟩⟩

/-- The effective meta of an item as read through `meta.get`. -/
def metaOf (it : Item) : Meta := it.meta.getD defaultMeta

/-- A slice dict: `{"set": ..., "items": [...]}` (`set` is `None` for
placeholder slices). -/
structure Slice where
  set : Option String
  items : List Item
deriving Repr, DecidableEq

/-- Extra per-layout keys merged into a space entry by `build_space_entry`. -/
inductive SpaceExtra where
  | strip (slice : Nat) (position_in_slice : Nat) (row_set : Option String)
  | cellstack (group_index : Nat) (group_set : Option String) (page_cycle : Nat)
deriving Repr, DecidableEq

/-- One provenance record of a `PagePlan.space` sequence. -/
structure SpaceEntry where
  slot : Nat
  stack : Nat
  cell : Nat
  set : Option String
  set_index : Option Nat
  card_index : Option Int
  copy_index : Option Int
  global_index : Option Int
  copies : Option Int
  placeholder : Bool
  label : String
  extra : SpaceExtra
deriving Repr, DecidableEq

instance : Inhabited SpaceEntry :=
  ⟨⟨0, 0, 0, none, none, none, none, none, none, false, "", .strip 0 0 none⟩⟩

/-- `PagePlan`. -/
structure PagePlan where
  items : List Item
  sets : List (Option String)
  space : List SpaceEntry
deriving Repr, DecidableEq

instance : Inhabited PagePlan := ⟨⟨[], [], []⟩⟩

/-- The fixed 1x1 placeholder image data URL. -/
def ONEPIXEL : String := "data:image/webp;base64,UklGRhYAAABXRUJQVlA4TAoAAAAvAAAAAEX/I/of"

/-- Per-set info recorded in `set_lookup`: `set_index` and item count. -/
def SetLookup := List (String × Nat × Nat)

/-- `build_placeholder_card`. -/
def build_placeholder_card (placeholder : String) (set_name : Option String)
    (set_lookup : SetLookup) : Item :=
  let set_index : Option Nat :=
    match set_name with
    | some n => (lookupKey set_lookup n).map Prod.fst
    | none => none
  { label := "", image := placeholder,
    meta := some { set := set_name, set_index := set_index, card_index := none,
                   copy_index := none, global_index := none, copies := none,
                   placeholder := true } }

/-- `build_space_entry`. -/
def build_space_entry (item : Item) (slot_index stack_index cell_index : Nat)
    (extra : SpaceExtra) : SpaceEntry :=
  let m := metaOf item
  { slot := slot_index, stack := stack_index, cell := cell_index,
    set := m.set, set_index := m.set_index, card_index := m.card_index,
    copy_index := m.copy_index, global_index := m.global_index, copies := m.copies,
    placeholder := m.placeholder, label := item.label, extra := extra }

/-- `chunked(seq, size)`: `seq[i:i+size]` for `i in range(0, len(seq), size)`
(`size > 0` at all call sites; `size = 0` raises in the source). -/
def chunked (seq : List α) (size : Nat) : List (List α) :=
  (List.range ((seq.length + size - 1) / size)).map (fun j => (seq.drop (j * size)).take size)

/-- `make_slices`: chunk one set's items into runs of `slice_size`, padding a
short final chunk with placeholder cards. -/
def make_slices (images : List Item) (slice_size : Nat) (set_name : String)
    (placeholder : String) (set_lookup : SetLookup) : List Slice :=
  (chunked images slice_size).map (fun chunk =>
    let chunk := if chunk.length < slice_size
      then chunk ++ (List.range (slice_size - chunk.length)).map
        (fun _ => build_placeholder_card placeholder (some set_name) set_lookup)
      else chunk
    { set := some set_name, items := chunk })

/-- `collect_all_slices`: concatenation of all sets' slices in set iteration
order. -/
def collect_all_slices (processed_sets : List (String × List Item)) (slice_size : Nat)
    (placeholder : String) (set_lookup : SetLookup) : List Slice :=
  processed_sets.flatMap (fun p => make_slices p.2 slice_size p.1 placeholder set_lookup)

/-- `apply_copies`: with `copies <= 1` the sets are returned unchanged;
otherwise each item is repeated `copies` times consecutively. -/
def apply_copies (processed_sets : List (String × List Item)) (copies : Int) :
    List (String × List Item) :=
  if copies ≤ 1 then processed_sets
  else processed_sets.map (fun p => (p.1, p.2.flatMap (fun im => List.replicate copies.toNat im)))

/-- `annotate_sets_with_meta`: enumerate sets and items, overwriting `_meta`
(every key of the record is written, so any pre-existing `_meta` content is
replaced). `//` and `%` are Python floor division and modulo (`Int.fdiv` /
`Int.fmod`); `if copies` is the zero test. -/
def annotate_sets_with_meta (processed_sets : List (String × List Item)) (copies : Int) :
    List (String × List Item) × SetLookup :=
  let annotated := processed_sets.enum.map (fun p =>
    (p.2.1, p.2.2.enum.map (fun q =>
      let m : Meta :=
        { set := some p.2.1, set_index := some p.1,
          card_index := some (if copies ≠ 0 then Int.fdiv q.1 copies else (q.1 : Int)),
          copy_index := some (if copies ≠ 0 then Int.fmod q.1 copies else 0),
          global_index := some (q.1 : Int), copies := some copies,
          placeholder := false }
      { q.2 with meta := some m })))
  let set_lookup : SetLookup := processed_sets.enum.map (fun p => (p.2.1, p.1, p.2.2.length))
  (annotated, set_lookup)

/-! ### `group_slices_into_pages` (sequential / parity-striped layout) -/

/-- `make_placeholder_slice` (local): a full slice of placeholder cards with
no set name. -/
def make_placeholder_slice (placeholder : String) (slice_size : Nat)
    (set_lookup : SetLookup) : Slice :=
  { set := none,
    items := (List.range slice_size).map
      (fun _ => build_placeholder_card placeholder none set_lookup) }

/-- `take_slice` (local): consume the next slice of the global stream, or a
fresh placeholder slice once the stream is exhausted. -/
def take_slice (all_slices : List Slice) (ph : Slice) (idx : Nat) : Slice × Nat :=
  if idx < all_slices.length then (all_slices.getD idx ph, idx + 1) else (ph, idx)

/-- `for row_pos in range(rows_per_stack)` body: fill row
`stack_idx * rows_per_stack + row_pos` of page `page_idx` (skipped when the
row index falls outside the page). `count` iterations remain, the next value
of `row_pos` is `rpos`. -/
def fill_row_loop (all_slices : List Slice) (ph : Slice) (spp rps stack_idx page_idx : Nat) :
    Nat → Nat → List (List Slice) × Nat → List (List Slice) × Nat
  | _, 0, st => st
  | rpos, c + 1, st =>
    let row_index := stack_idx * rps + rpos
    if row_index ≥ spp then
      fill_row_loop all_slices ph spp rps stack_idx page_idx (rpos + 1) c st
    else
      let s := take_slice all_slices ph st.2
      fill_row_loop all_slices ph spp rps stack_idx page_idx (rpos + 1) c
        (modifyAt st.1 page_idx (fun row => setAt row row_index s.1), s.2)

/-- `for page_idx in range(page_count)` loop. -/
def fill_page_loop (all_slices : List Slice) (ph : Slice) (spp rps stack_idx : Nat) :
    Nat → Nat → List (List Slice) × Nat → List (List Slice) × Nat
  | _, 0, st => st
  | p, c + 1, st =>
    fill_page_loop all_slices ph spp rps stack_idx (p + 1) c
      (fill_row_loop all_slices ph spp rps stack_idx p 0 rps st)

/-- `for stack_idx in range(stack_count)` loop. -/
def fill_stack_loop (all_slices : List Slice) (ph : Slice) (spp rps page_count : Nat) :
    Nat → Nat → List (List Slice) × Nat → List (List Slice) × Nat
  | _, 0, st => st
  | s, c + 1, st =>
    fill_stack_loop all_slices ph spp rps page_count (s + 1) c
      (fill_page_loop all_slices ph spp rps s 0 page_count st)

/-- `items.append(item)` followed by `space.append(build_space_entry(item,
slot_index, ...))` with `slot_index = len(items)` — the common step of both
page-plan builders. -/
def pushItem (acc : List Item × List SpaceEntry) (item : Item)
    (stack_index cell_index : Nat) (extra : SpaceExtra) : List Item × List SpaceEntry :=
  (acc.1 ++ [item], acc.2 ++ [build_space_entry item acc.1.length stack_index cell_index extra])

/-- Building one `PagePlan` from a page's rows (the `for row_idx, slice_ in
enumerate(rows)` / `for column_idx, item in enumerate(slice_["items"])`
loops). -/
def build_page_plan (rows : List Slice) (stack_count rps slice_size : Nat) : PagePlan :=
  let acc := rows.enum.foldl (fun acc rp =>
    rp.2.items.enum.foldl (fun acc2 cp =>
      let row_idx := rp.1
      let stack_index := if stack_count > 1 then row_idx / rps else 0
      let row_position := if stack_count > 1 then row_idx % rps else row_idx
      let cell_index := row_position * slice_size + cp.1
      pushItem acc2 cp.2 stack_index cell_index (.strip row_idx cp.1 rp.2.set))
      acc) (([] : List Item), ([] : List SpaceEntry))
  { items := acc.1, sets := rows.map (fun r => r.set), space := acc.2 }

/-- `group_slices_into_pages`. Error paths (`return None, None` and the
`RuntimeError`) are `none`; success returns the page plans and
`cells_per_page`. -/
def group_slices_into_pages (all_slices : List Slice) (slots_per_page slice_size : Nat)
    (placeholder : String) (parity : Int) (set_lookup : SetLookup) :
    Option (List PagePlan × Nat) :=
  let slices_per_page := slots_per_page / slice_size
  if slices_per_page = 0 then none
  else
    let stack_count := max 1 parity.toNat
    if stack_count > 1 ∧ slices_per_page % stack_count ≠ 0 then none
    else
      let rows_per_stack := if stack_count > 1 then slices_per_page / stack_count
        else slices_per_page
      let cells_per_page := if stack_count > 1 then rows_per_stack * slice_size
        else slots_per_page
      let total_slices := all_slices.length
      if total_slices = 0 then some ([], cells_per_page)
      else
        let page_count := (total_slices + slices_per_page - 1) / slices_per_page
        let ph := make_placeholder_slice placeholder slice_size set_lookup
        let init : List (List Slice) × Nat :=
          (List.replicate page_count (List.replicate slices_per_page ph), 0)
        let filled := fill_stack_loop all_slices ph slices_per_page rows_per_stack
          page_count 0 stack_count init
        if filled.2 < total_slices then none  -- RuntimeError in the source
        else
          some (filled.1.enum.map (fun p =>
            build_page_plan p.2 stack_count rows_per_stack slice_size), cells_per_page)

/-! ### `build_cell_stack_page_plans` (cell-stacked layout) -/

/-- One page of a cell-stack group: the `for stack_idx in range(cell_stack)` /
`for cell_index, (set_name, images) in enumerate(padded_group)` loops. -/
def buildCellPage (padded_group : List (Option String × List Item))
    (group_sets : List (Option String)) (group_index page_idx cell_stack limit : Nat)
    (placeholder : String) (set_lookup : SetLookup) : PagePlan :=
  let acc := (List.range cell_stack).foldl (fun acc stack_idx =>
    let card_offset := stack_idx * limit
    padded_group.enum.foldl (fun acc2 cp =>
      let cell_index := cp.1
      let set_name := cp.2.1
      let images := cp.2.2
      let card_index := page_idx + card_offset
      let item := if set_name.isSome ∧ card_index < images.length
        then images.getD card_index default
        else build_placeholder_card placeholder set_name set_lookup
      pushItem acc2 item stack_idx cell_index (.cellstack group_index set_name page_idx))
      acc) (([] : List Item), ([] : List SpaceEntry))
  { items := acc.1, sets := group_sets, space := acc.2 }

/-- `build_cell_stack_page_plans`. The `cell_stack <= 1` guard raises
`ValueError` in the source and the divisibility failure returns `None`; both
are `none` here, as is the `chunked(..., 0)` crash when a template has zero
slots. -/
def build_cell_stack_page_plans (processed_sets : List (String × List Item))
    (slots_per_page : Nat) (cell_stack : Int) (placeholder : String)
    (set_lookup : SetLookup) : Option (List PagePlan) :=
  if cell_stack ≤ 1 then none
  else
    let P := cell_stack.toNat
    if slots_per_page % P ≠ 0 then none
    else
      let cells_per_page := slots_per_page / P
      if cells_per_page = 0 then none
      else
        let ordered_sets : List (Option String × List Item) :=
          processed_sets.map (fun p => (some p.1, p.2))
        some ((chunked ordered_sets cells_per_page).enum.flatMap (fun gp =>
          let group := gp.2
          let padded_group := group ++
            List.replicate (cells_per_page - group.length) ((none : Option String), ([] : List Item))
          let group_sets := group.map Prod.fst
          let max_len := (group.map (fun g => g.2.length)).foldl max 0
          if max_len = 0 then []
          else
            let limit := (max_len + P - 1) / P
            if limit = 0 then []
            else
              (List.range limit).map (fun page_idx =>
                buildCellPage padded_group group_sets gp.1 page_idx P limit
                  placeholder set_lookup)))

/-! ### Durable image cache (`get_normalized_mtime` / `process_image_with_cache`)

The filesystem is abstracted as an oracle `fs` returning the already
normalized integer-millisecond mtime of a path, or `none` when
`os.path.getmtime` raises; the external image transform `process_image` is
an oracle `proc`. The in-memory cache dict maps a path to
`(mtime-or-None, data_url)`. -/

/-- `get_normalized_mtime`. -/
def get_normalized_mtime (fs : String → Option Int) (image_path : String) : Option Int :=
  fs image_path

/-- The hit condition of `process_image_with_cache`: an entry exists and its
stored mtime (possibly `None`) equals the current one (possibly `None`) —
Python's `==` makes `None == None` a hit. -/
def cacheHit (fs : String → Option Int) (cache : List (String × Option Int × String))
    (image_path : String) : Bool :=
  match lookupKey cache image_path with
  | some entry => entry.1 == get_normalized_mtime fs image_path
  | none => false

/-- `process_image_with_cache` (the WAL enqueue is an external side effect
and not modelled): returns the data URL and the updated in-memory cache. -/
def process_image_with_cache (fs : String → Option Int) (proc : String → String)
    (cache : List (String × Option Int × String)) (image_path : String) :
    String × List (String × Option Int × String) :=
  let mtime := get_normalized_mtime fs image_path
  match lookupKey cache image_path with
  | some entry =>
    if entry.1 = mtime then (entry.2, cache)
    else
      let data_url := proc image_path
      (data_url, setKey cache image_path (mtime, data_url))
  | none =>
    let data_url := proc image_path
    (data_url, setKey cache image_path (mtime, data_url))

/-! ### `process_image_set` control flow (steps relevant to the claims)

All I/O is abstracted: `processed_sets` stands for the outcome of discovery
or test-mode synthesis, and the template's `slots_per_page` / `slice_size`
for the outcome of `load_template_info`. Rendering and PDF merging are out
of scope; a successful run returns the computed page plans. -/

inductive RunResult where
  | error (msg : String)
  | ok (pages : List PagePlan)
deriving Repr, DecidableEq

/-- The copies/annotation stage of `process_image_set`:
`apply_copies` only when `copies > 1`, then `annotate_sets_with_meta`. -/
def prepare_sets (processed_sets : List (String × List Item)) (copies : Int) :
    List (String × List Item) × SetLookup :=
  let expanded := if copies > 1 then apply_copies processed_sets copies else processed_sets
  annotate_sets_with_meta expanded copies

/-- `process_image_set`: the `copies < 1` guard comes first (before
discovery, template loading and any page work), then set preparation and the
layout branch. -/
def process_image_set (processed_sets : List (String × List Item))
    (slots_per_page slice_size : Nat) (parity : Int) (cell_stack_mode : Bool)
    (copies : Int) : RunResult :=
  if copies < 1 then .error "Copies must be at least 1."
  else if processed_sets.isEmpty then .error "No image sets found."
  else
    let prepared := prepare_sets processed_sets copies
    let annotated := prepared.1
    let set_lookup := prepared.2
    if cell_stack_mode then
      if parity ≤ 1 then .error "Cell stack mode requires --parity greater than 1."
      else
        match build_cell_stack_page_plans annotated slots_per_page parity ONEPIXEL set_lookup with
        | none => .error "Layout error."
        | some page_plans =>
          if page_plans.isEmpty then .error "No pages produced." else .ok page_plans
    else
      let all_slices := collect_all_slices annotated slice_size ONEPIXEL set_lookup
      match group_slices_into_pages all_slices slots_per_page slice_size ONEPIXEL
        parity set_lookup with
      | none => .error "Layout error."
      | some result =>
        if result.1.isEmpty then .error "No pages produced." else .ok result.1

/-! ### Helper lemmas about enumeration -/

theorem enumFrom_map_fst (l : List α) (n : Nat) (f : Nat → β) :
    ((List.enumFrom n l).map (fun p => f p.1)) = (List.range' n l.length).map f := by
  induction l generalizing n with
  | nil => rfl
  | cons a as ih => simp [List.enumFrom, List.range'_succ, ih]

theorem enum_map_fst (l : List α) (f : Nat → β) :
    (l.enum.map (fun p => f p.1)) = (List.range l.length).map f := by
  rw [List.enum, List.range_eq_range']
  exact enumFrom_map_fst l 0 f

/-- The groups produced by `parse_and_tokenize` carry positions `0..N-1` in
discovery order. -/
theorem parse_positions (root : Elem) :
    (parse_and_tokenize root).groups.map (fun g => g.position)
      = List.range (_find_eligible_groups root).length := by
  have h := enum_map_fst (_find_eligible_groups root) (fun i : Nat => i)
  calc (parse_and_tokenize root).groups.map (fun g => g.position)
      = (_find_eligible_groups root).enum.map (fun p => p.1) := by
        show ((_find_eligible_groups root).enum.map _).map _ = _
        rw [List.map_map]; rfl
    _ = (List.range (_find_eligible_groups root).length).map (fun i => i) := h
    _ = List.range (_find_eligible_groups root).length := by simp

theorem parse_groups_length (root : Elem) :
    (parse_and_tokenize root).groups.length = (_find_eligible_groups root).length := by
  show ((_find_eligible_groups root).enum.map _).length = _
  simp [List.enum_length]

/-! ### Concrete fixture documents -/

/-- A marked text child (`'txt'` appears in the flattened content). -/
def sampleText : Elem := .mk "text" [] (some "txt name") none []

def sampleImage : Elem := .mk "image" [("href", "x.png")] none none []

/-- An eligible group: no child groups, one marked text child, one image
child. -/
def sampleGroup : Elem := .mk "g" [] none none [sampleText, sampleImage]

/-- A document whose only group is eligible and sits directly under the
root. -/
def sampleDoc : Elem := .mk "svg" [] none none [sampleGroup]

/-- A document whose only (eligible) group is wrapped in a non-group
container element. -/
def hiddenDoc : Elem := .mk "svg" [] none none [.mk "defs" [] none none [sampleGroup]]

/-! ### C9: slot identifiers -/

/-- C9, counterexample: discovered slot groups are identified `group_000`,
`group_001`, ... — not `slot_000`, `slot_001`, ... as the claim states. On a
document with exactly one discovered group the identifier list is
`["group_000"]`, which differs from the claimed `["slot_000"]`. -/
theorem c9_counterexample :
    (parse_and_tokenize sampleDoc).groups.map (fun g => g.group_id) = ["group_000"] ∧
    (parse_and_tokenize sampleDoc).groups.map (fun g => g.group_id) ≠ ["slot_000"] :=
  ⟨rfl, by decide⟩

/-- C9, amended: each discovered slot group is assigned the stable identifier
`group_{i:03d}` — `group_000`, `group_001`, ... zero-padded to three digits —
in discovery order starting from `group_000`. -/
theorem c9_group_ids_amended (root : Elem) :
    (parse_and_tokenize root).groups.map (fun g => g.group_id)
      = (List.range (_find_eligible_groups root).length).map (fun i => "group_" ++ pad3 i) := by
  calc (parse_and_tokenize root).groups.map (fun g => g.group_id)
      = (_find_eligible_groups root).enum.map (fun p => "group_" ++ pad3 p.1) := by
        show ((_find_eligible_groups root).enum.map _).map _ = _
        rw [List.map_map]; rfl
    _ = _ := enum_map_fst (_find_eligible_groups root) (fun i => "group_" ++ pad3 i)

/-! ### C5: cache hit condition -/

/-- A filesystem on which no mtime can be read. -/
def fsUnreadable : String → Option Int := fun _ => none

/-- An image transform producing a fresh data URL. -/
def procFresh : String → String := fun _ => "fresh"

/-- A cache holding an entry recorded when the file's mtime was already
unreadable (the WAL round-trips such entries as an empty mtime field, read
back as `None`). -/
def staleCache : List (String × Option Int × String) := [("p", (none, "stale"))]

/-- C5, counterexample: the claim says the inability to read a current
timestamp is always a miss that causes reprocessing. But Python's
`cached_mtime == mtime` holds when both are `None`, so a path whose
timestamp is unreadable now *and* was unreadable when cached is a HIT: the
stale stored reference is returned, the transform is not invoked (its output
`"fresh"` differs from the result), and the cache is left unchanged. -/
theorem c5_counterexample :
    process_image_with_cache fsUnreadable procFresh staleCache "p" = ("stale", staleCache) ∧
    get_normalized_mtime fsUnreadable "p" = none ∧
    procFresh "p" = "fresh" ∧ ("stale" : String) ≠ "fresh" :=
  ⟨rfl, rfl, rfl, by decide⟩

/-- C5, amended: a lookup is a hit returning the stored image reference if
and only if the cached normalized timestamp record equals the current one,
where both sides may be "unknown" (`None`): any mismatch — including an
unreadable current timestamp when the cached one is known — is a miss that
reprocesses the source and overwrites the cache entry; an unreadable current
timestamp is a hit when the cached record is also unknown. -/
theorem c5_cache_amended (fs : String → Option Int) (proc : String → String)
    (cache : List (String × Option Int × String)) (path : String) :
    (∀ m d, lookupKey cache path = some (m, d) →
       ((m = get_normalized_mtime fs path →
           process_image_with_cache fs proc cache path = (d, cache)) ∧
        (m ≠ get_normalized_mtime fs path →
           process_image_with_cache fs proc cache path
             = (proc path, setKey cache path (get_normalized_mtime fs path, proc path))))) ∧
    (lookupKey cache path = none →
       process_image_with_cache fs proc cache path
         = (proc path, setKey cache path (get_normalized_mtime fs path, proc path))) := by
  refine ⟨fun m d h => ⟨fun hm => ?_, fun hm => ?_⟩, fun h => ?_⟩
  · simp [process_image_with_cache, h, hm]
  · simp [process_image_with_cache, h, hm]
  · simp [process_image_with_cache, h]

/-- Witness for C5 amended at concrete inputs: a matching timestamp is a hit
returning the stored reference with the cache untouched. -/
theorem c5_witness :
    process_image_with_cache (fun _ => some 5) (fun _ => "fresh")
      [("p", (some 5, "d"))] "p" = ("d", [("p", (some 5, "d"))]) :=
  ((c5_cache_amended (fun _ => some 5) (fun _ => "fresh")
      [("p", (some 5, "d"))] "p").1 (some 5) "d" rfl).1 rfl

/-! ### C7: stacked layout geometry errors -/

/-- C7: the stacked layouts fail with a layout error rather than silently
truncating. With stack count `P > 1`, the parity-striped layout yields no
page plans whenever `slotsPerSlice = slotsPerPage / sliceSize` is not
divisible by `P`, and the cell-stacked layout yields no page plans whenever
`slotsPerPage` is not divisible by `P`. -/
theorem c7_stacked_layout_errors :
    (∀ (all_slices : List Slice) (slots_per_page slice_size : Nat) (ph : String)
       (parity : Int) (lu : SetLookup), 1 < parity →
       (slots_per_page / slice_size) % parity.toNat ≠ 0 →
       group_slices_into_pages all_slices slots_per_page slice_size ph parity lu = none) ∧
    (∀ (processed_sets : List (String × List Item)) (slots_per_page : Nat)
       (cell_stack : Int) (ph : String) (lu : SetLookup), 1 < cell_stack →
       slots_per_page % cell_stack.toNat ≠ 0 →
       build_cell_stack_page_plans processed_sets slots_per_page cell_stack ph lu = none) := by
  constructor
  · intro all_slices slots_per_page slice_size ph parity lu hp hmod
    have h1 : max 1 parity.toNat = parity.toNat := by omega
    by_cases h0 : slots_per_page / slice_size = 0
    · simp [group_slices_into_pages, h0]
    · have hcond : max 1 parity.toNat > 1 ∧
          (slots_per_page / slice_size) % (max 1 parity.toNat) ≠ 0 := by
        rw [h1]; exact ⟨by omega, hmod⟩
      simp only [group_slices_into_pages]
      rw [if_neg h0, if_pos hcond]
  · intro processed_sets slots_per_page cell_stack ph lu hp hmod
    have h1 : ¬ cell_stack ≤ 1 := by omega
    simp only [build_cell_stack_page_plans]
    rw [if_neg h1, if_pos hmod]

/-- Witness for C7 at concrete inputs: `slotsPerPage = 6`, `sliceSize = 1`,
`P = 4` (6 % 4 ≠ 0) errors in the strip layout; `slotsPerPage = 7`, `P = 2`
errors in the cell-stack layout. -/
theorem c7_witness :
    group_slices_into_pages [] 6 1 ONEPIXEL 4 [] = none ∧
    build_cell_stack_page_plans [] 7 2 ONEPIXEL [] = none :=
  ⟨c7_stacked_layout_errors.1 [] 6 1 ONEPIXEL 4 [] (by decide) (by decide),
   c7_stacked_layout_errors.2 [] 7 2 ONEPIXEL [] (by decide) (by decide)⟩

/-! ### C10: modification of a missing group -/

/-- C10: for a parsed document and a position at which no slot group was
discovered (discovered positions are exactly `0..N-1`), modifying that
group's labels or images returns `False` and returns before any mutation:
the document tree and every token are left exactly as they were. -/
theorem c10_missing_group_rejected (root : Elem) (pos : Nat) (new_label new_href : String)
    (h : (parse_and_tokenize root).groups.length ≤ pos) :
    modify_group_labels (parse_and_tokenize root) pos new_label
        = (false, parse_and_tokenize root) ∧
    modify_group_images (parse_and_tokenize root) pos new_href
        = (false, parse_and_tokenize root) := by
  have hnone : get_group_by_position (parse_and_tokenize root) pos = none := by
    rw [get_group_by_position, List.find?_eq_none]
    intro g hg
    have hmem : g.position ∈ (parse_and_tokenize root).groups.map (fun g => g.position) :=
      List.mem_map_of_mem _ hg
    rw [parse_positions] at hmem
    have hlt : g.position < (_find_eligible_groups root).length := List.mem_range.mp hmem
    have hlen := parse_groups_length root
    simp only [beq_iff_eq]
    omega
  constructor
  · rw [modify_group_labels, hnone]
  · rw [modify_group_images, hnone]

/-- Witness for C10: on a document with one discovered group, position 5 is
not discovered and both modification calls are rejected with the state
unchanged. -/
theorem c10_witness :
    (parse_and_tokenize sampleDoc).groups.length ≤ 5 ∧
    modify_group_labels (parse_and_tokenize sampleDoc) 5 "L"
        = (false, parse_and_tokenize sampleDoc) ∧
    modify_group_images (parse_and_tokenize sampleDoc) 5 "H"
        = (false, parse_and_tokenize sampleDoc) :=
  ⟨by decide,
   (c10_missing_group_rejected sampleDoc 5 "L" "H" (by decide)).1,
   (c10_missing_group_rejected sampleDoc 5 "L" "H" (by decide)).2⟩

/-! ### C1: slot discovery -/

mutual
/-- The traversal returns exactly the eligible groups among those reachable
through chains of group elements, in pre-order. -/
theorem traverse_groups_eq_filter : ∀ (e : Elem) (path : List Nat),
    (traverse_groups e path).map Prod.snd = (chainGroupsE e).filter is_eligible_group
  | .mk _ _ _ _ cs, path => traverse_children_eq_filter cs path 0
theorem traverse_children_eq_filter : ∀ (cs : List Elem) (path : List Nat) (i : Nat),
    (traverse_children cs path i).map Prod.snd = (chainGroupsL cs).filter is_eligible_group
  | [], _, _ => rfl
  | c :: cs, path, i => by
    rw [traverse_children, chainGroupsL]
    by_cases hg : _is_group_element c
    · by_cases he : is_eligible_group c
      · simp [hg, he, List.filter_cons, traverse_groups_eq_filter c (path ++ [i]),
          traverse_children_eq_filter cs path (i + 1)]
      · simp [hg, he, List.filter_cons, traverse_groups_eq_filter c (path ++ [i]),
          traverse_children_eq_filter cs path (i + 1)]
    · simp [hg, traverse_children_eq_filter cs path (i + 1)]
end

/-- C1, counterexample: on `hiddenDoc` the (unique) group `sampleGroup`
satisfies the eligibility predicate and occurs in the document, yet
discovery returns nothing, because the traversal never descends into the
non-group `defs` container. So "a group is discovered iff it satisfies the
eligibility predicate" fails in the only-if-it-is-reachable direction. -/
theorem c1_counterexample :
    (_find_eligible_groups hiddenDoc).map Prod.snd = [] ∧
    is_eligible_group sampleGroup = true ∧
    sampleGroup ∈ allGroupsE hiddenDoc := by
  refine ⟨rfl, rfl, ?_⟩
  rw [show allGroupsE hiddenDoc = [sampleGroup] from rfl]
  exact List.mem_singleton_self _

/-- C1, amended: slot discovery returns exactly the groups *reachable from
the root through a chain of group elements* that satisfy the eligibility
predicate (no direct child group; a marked text child and an image child
among the direct children) — a group nested inside a non-group container is
never visited. Discovered groups are collected in pre-order and assigned
positions `0..N-1` in that order, and a discovered group never has a direct
child group. -/
theorem c1_discovery_amended (root : Elem) :
    (_find_eligible_groups root).map Prod.snd
        = (chainGroupsE root).filter is_eligible_group ∧
    (parse_and_tokenize root).groups.map (fun g => g.position)
        = List.range (_find_eligible_groups root).length ∧
    (∀ p ∈ _find_eligible_groups root, p.2.children.any _is_group_element = false) := by
  refine ⟨traverse_groups_eq_filter root [], parse_positions root, fun p hp => ?_⟩
  have hmem : p.2 ∈ (_find_eligible_groups root).map Prod.snd := List.mem_map_of_mem _ hp
  rw [show _find_eligible_groups root = traverse_groups root [] from rfl,
    traverse_groups_eq_filter root []] at hmem
  have helig := List.of_mem_filter hmem
  have h1 := (Bool.and_eq_true _ _).mp ((Bool.and_eq_true _ _).mp helig).1
  simpa using h1.1


/-! ### C4: label modification with a sub-run (tspan) child -/

theorem firstIdxWhere_some_lt (p : α → Bool) (l : List α) (i : Nat)
    (h : firstIdxWhere p l = some i) : i < l.length := by
  induction l generalizing i with
  | nil => simp [firstIdxWhere] at h
  | cons a as ih =>
    rw [firstIdxWhere] at h
    by_cases hp : p a
    · rw [if_pos hp] at h
      cases h
      simp
    · rw [if_neg hp] at h
      cases hrec : firstIdxWhere p as with
      | none => rw [hrec] at h; cases h
      | some j =>
        rw [hrec] at h
        cases h
        have := ih j hrec
        simp only [List.length_cons]
        omega

/-- With a tspan child present, `_modify_text_token` takes the tspan
branch. -/
theorem _modify_text_token_some (e : Elem) (nc : String) (i : Nat)
    (hidx : firstIdxWhere (fun c => pyEndsWith c.tag "tspan") e.children = some i) :
    _modify_text_token e nc = _modify_text_token_tspan e nc i := by
  unfold _modify_text_token
  rw [hidx]

/-- The tspan branch written out on a destructured element. -/
theorem _modify_text_token_tspan_mk (t : String) (a : List (String × String))
    (x tl : Option String) (cs : List Elem) (nc : String) (i : Nat) :
    _modify_text_token_tspan (Elem.mk t a x tl cs) nc i
      = Elem.mk t a x tl
          (modifyAt (modifyAt (modifyAt cs i
              (fun c => (Elem.clear c).withText (some nc))) 0
            (fun c0 => c0.attrib.foldl
              (fun acc kv => acc.setAttr kv.1 (normStyleValue kv.1 kv.2)) c0)) i
            (fun ft => ft.attrib.foldl (fun acc kv => acc.setAttr kv.1 kv.2) ft)) := rfl

theorem setKey_append_not_mem (l₁ l₂ : List (String × α)) (k : String) (v w : α)
    (h : k ∉ l₁.map Prod.fst) : setKey (l₁ ++ (k, v) :: l₂) k w = l₁ ++ (k, w) :: l₂ := by
  induction l₁ with
  | nil => simp [setKey]
  | cons a l₁ ih =>
    have hne : a.1 ≠ k := by
      intro heq
      exact h (by simp [heq])
    cases a
    simp only [List.cons_append, setKey, hne, if_false, List.cons.injEq, true_and]
    exact ih (fun hm => h (List.mem_cons_of_mem _ hm))

/-- Writing back every key of an association list with unique keys, in
iteration order, value-transformed by `f`, maps the values in place. -/
theorem foldl_setKey_map (f : String → α → α) :
    ∀ (todo done : List (String × α)),
    ((done ++ todo).map Prod.fst).Nodup →
    todo.foldl (fun acc kv => setKey acc kv.1 (f kv.1 kv.2))
        (done.map (fun kv => (kv.1, f kv.1 kv.2)) ++ todo)
      = (done ++ todo).map (fun kv => (kv.1, f kv.1 kv.2)) := by
  intro todo
  induction todo with
  | nil => intro done _; simp
  | cons kv rest ih =>
    intro done hnodup
    cases kv with
    | mk k v =>
      have hknot : k ∉ done.map Prod.fst := by
        intro hm
        rw [List.map_append] at hnodup
        rcases List.disjoint_of_nodup_append hnodup hm (by simp)
      have hknot' : k ∉ (done.map (fun kv => (kv.1, f kv.1 kv.2))).map Prod.fst := by
        simpa [List.map_map, Function.comp] using hknot
      simp only [List.foldl_cons]
      rw [setKey_append_not_mem _ _ _ _ _ hknot']
      have hsplit : done.map (fun kv => (kv.1, f kv.1 kv.2)) ++ (k, f k v) :: rest
          = (done ++ [(k, v)]).map (fun kv => (kv.1, f kv.1 kv.2)) ++ rest := by
        simp
      rw [hsplit]
      have hnodup' : (((done ++ [(k, v)]) ++ rest).map Prod.fst).Nodup := by
        simpa [List.append_assoc] using hnodup
      rw [ih (done ++ [(k, v)]) hnodup']
      simp [List.append_assoc]

/-- The element-level attribute write-back fold only rewrites `attrib`. -/
theorem elem_foldl_setAttr (f : String → String → String) :
    ∀ (todo : List (String × String)) (c : Elem),
    todo.foldl (fun acc kv => acc.setAttr kv.1 (f kv.1 kv.2)) c
      = Elem.mk c.tag (todo.foldl (fun a kv => setKey a kv.1 (f kv.1 kv.2)) c.attrib)
          c.text c.tail c.children := by
  intro todo
  induction todo with
  | nil => intro c; cases c; rfl
  | cons kv rest ih =>
    intro c
    rw [List.foldl_cons, List.foldl_cons, ih (c.setAttr kv.1 (f kv.1 kv.2))]
    cases c
    rfl

/-- The combined fold: write back every attribute of `c` (unique keys) with
values transformed by `f`. -/
theorem foldl_setAttr_self (f : String → String → String) (c : Elem)
    (h : (c.attrib.map Prod.fst).Nodup) :
    c.attrib.foldl (fun acc kv => acc.setAttr kv.1 (f kv.1 kv.2)) c
      = Elem.mk c.tag (c.attrib.map (fun kv => (kv.1, f kv.1 kv.2))) c.text c.tail c.children := by
  rw [elem_foldl_setAttr]
  have := foldl_setKey_map f c.attrib [] (by simpa using h)
  simpa using this

theorem clear_withText (c : Elem) (s : String) :
    (Elem.clear c).withText (some s) = Elem.mk c.tag [] (some s) none [] := by
  cases c; rfl

/-- The text element of the counterexample: one attribute of its own, a
single tspan child carrying a style with the placeholder color and a
coordinate attribute, plus nested content. -/
def c4tspan : Elem :=
  .mk "tspan" [("style", "fill:#008080"), ("x", "2")] (some "Old") none
    [.mk "extra" [] none none []]

def c4text : Elem := .mk "text" [("x", "1")] (some " ") none [c4tspan]

/-- C4, counterexample: the claim says all attributes of the sub-run are
preserved (with the placeholder color normalized inside `style`). But
`Element.clear()` also clears attributes, so after modification the tspan
has NO attributes at all, while preservation-with-normalization would have
produced `style=fill:#000000, x=2`. -/
theorem c4_counterexample :
    ((_modify_text_token c4text "New").childAt 0).attrib = [] ∧
    c4tspan.attrib.map (fun kv => (kv.1, normStyleValue kv.1 kv.2))
      = [("style", "fill:#000000"), ("x", "2")] ∧
    ([] : List (String × String)) ≠ [("style", "fill:#000000"), ("x", "2")] :=
  ⟨rfl, rfl, by decide⟩

/-- C4, amended: when the underlying text node has a sub-run (tspan) child
(the first one at index `i`), `modify` replaces that sub-run by a bare
element: its text becomes the new content and its children, tail AND
attributes are all cleared (attribute preservation fails because
`Element.clear` wipes `attrib` before the "preserve" loops run). The parent
text node's own tag, attributes, text and tail are untouched, as are all
children other than the sub-run and the first child. The
color-normalization rewrite (`#008080` → `#000000` inside `style`) is
applied to the attributes of the parent's FIRST child — a no-op when that
first child is the cleared sub-run itself. -/
theorem c4_label_modify_amended (e : Elem) (new_content : String) (i : Nat)
    (hidx : firstIdxWhere (fun c => pyEndsWith c.tag "tspan") e.children = some i) :
    (_modify_text_token e new_content).tag = e.tag ∧
    (_modify_text_token e new_content).attrib = e.attrib ∧
    (_modify_text_token e new_content).text = e.text ∧
    (_modify_text_token e new_content).tail = e.tail ∧
    (_modify_text_token e new_content).children.length = e.children.length ∧
    (_modify_text_token e new_content).childAt i
      = Elem.mk (e.childAt i).tag [] (some new_content) none [] ∧
    (∀ j, j ≠ i → j ≠ 0 →
      (_modify_text_token e new_content).childAt j = e.childAt j) ∧
    (i ≠ 0 → ((e.childAt 0).attrib.map Prod.fst).Nodup →
      (_modify_text_token e new_content).childAt 0
        = Elem.mk (e.childAt 0).tag
            ((e.childAt 0).attrib.map (fun kv => (kv.1, normStyleValue kv.1 kv.2)))
            (e.childAt 0).text (e.childAt 0).tail (e.childAt 0).children) := by
  rw [_modify_text_token_some e new_content i hidx]
  obtain ⟨t, a, x, tl, cs⟩ := e
  simp only [Elem.children_mk] at hidx
  have hlt : i < cs.length := firstIdxWhere_some_lt _ _ _ hidx
  rw [_modify_text_token_tspan_mk]
  set cf : Elem → Elem := fun c => (Elem.clear c).withText (some new_content) with hcf
  set ff : Elem → Elem := fun c0 =>
    c0.attrib.foldl (fun acc kv => acc.setAttr kv.1 (normStyleValue kv.1 kv.2)) c0 with hff
  set ff2 : Elem → Elem := fun ft =>
    ft.attrib.foldl (fun acc kv => acc.setAttr kv.1 kv.2) ft with hff2
  have hcf_bare : ∀ c, cf c = Elem.mk c.tag [] (some new_content) none [] := by
    intro c; rw [hcf]; exact clear_withText c new_content
  have hff_bare : ∀ tg, ff (Elem.mk tg [] (some new_content) none [])
      = Elem.mk tg [] (some new_content) none [] := by
    intro tg; rw [hff]; rfl
  have hff2_bare : ∀ tg, ff2 (Elem.mk tg [] (some new_content) none [])
      = Elem.mk tg [] (some new_content) none [] := by
    intro tg; rw [hff2]; rfl
  refine ⟨rfl, rfl, rfl, rfl, by simp, ?_, ?_, ?_⟩
  · simp only [Elem.childAt_mk]
    by_cases h0 : i = 0
    · subst h0
      rw [getD_modifyAt_same _ _ _ _ (by simpa using hlt),
        getD_modifyAt_same _ _ _ _ (by simpa using hlt),
        getD_modifyAt_same _ _ _ _ hlt, hcf_bare, hff_bare, hff2_bare]
    · rw [getD_modifyAt_same _ _ _ _ (by simpa using hlt),
        getD_modifyAt_ne _ _ _ _ _ h0,
        getD_modifyAt_same _ _ _ _ hlt, hcf_bare, hff2_bare]
  · intro j hji hj0
    simp only [Elem.childAt_mk]
    rw [getD_modifyAt_ne _ _ _ _ _ hji, getD_modifyAt_ne _ _ _ _ _ hj0,
      getD_modifyAt_ne _ _ _ _ _ hji]
  · intro h0 hnd
    simp only [Elem.childAt_mk] at hnd ⊢
    have h0' : (0 : Nat) ≠ i := fun h => h0 h.symm
    rw [getD_modifyAt_ne _ _ _ _ _ h0',
      getD_modifyAt_same _ _ _ _ (by simp; omega),
      getD_modifyAt_ne _ _ _ _ _ h0']
    simp only [hff]
    exact foldl_setAttr_self _ _ hnd

/-- Witness for C4 amended at a concrete element whose first child is its
tspan. -/
theorem c4_witness :
    firstIdxWhere (fun c => pyEndsWith c.tag "tspan") c4text.children = some 0 ∧
    (_modify_text_token c4text "New").childAt 0
      = Elem.mk "tspan" [] (some "New") none [] :=
  ⟨rfl, by
    have h := (c4_label_modify_amended c4text "New" 0 rfl).2.2.2.2.2.1
    simpa using h⟩

/-! ### C3: modify / reset round-trip -/

theorem modifyAt_ge_length (l : List α) (i : Nat) (f : α → α) (h : l.length ≤ i) :
    modifyAt l i f = l := by
  induction l generalizing i with
  | nil => rfl
  | cons a as ih =>
    cases i with
    | zero => simp at h
    | succ n => simp only [modifyAt, List.cons.injEq, true_and]; exact ih n (by simpa using h)

/-- Current content of the token at `(g, t)` (default token out of range). -/
def contentAt (st : TokState) (g t : Nat) : String := (getToken st g t).content

/-- Recorded original content of the token at `(g, t)`. -/
def originalAt (st : TokState) (g t : Nat) : String := (getToken st g t).original_content

theorem modify_token_groups (st : TokState) (g t : Nat) (nc : String) :
    (modify_token st g t nc).groups
      = modifyAt st.groups g (fun gm =>
          { gm with tokens := modifyAt gm.tokens t (fun tk => { tk with content := nc }) }) := rfl

theorem groups_length_modify_token (st : TokState) (g t : Nat) (nc : String) :
    (modify_token st g t nc).groups.length = st.groups.length := by
  rw [modify_token_groups]; simp

theorem tokensLength_modify_token (st : TokState) (g t : Nat) (nc : String) (g' : Nat) :
    tokensLength (modify_token st g t nc) g' = tokensLength st g' := by
  unfold tokensLength
  rw [modify_token_groups]
  by_cases hg : g' = g
  · subst hg
    by_cases hlen : g' < st.groups.length
    · rw [getD_modifyAt_same _ _ _ _ hlen]; simp
    · rw [modifyAt_ge_length _ _ _ (by omega)]
  · rw [getD_modifyAt_ne _ _ _ _ _ hg]

theorem originalAt_modify_token (st : TokState) (g t : Nat) (nc : String) (g' t' : Nat) :
    originalAt (modify_token st g t nc) g' t' = originalAt st g' t' := by
  unfold originalAt getToken
  rw [modify_token_groups]
  by_cases hg : g' = g
  · subst hg
    by_cases hlen : g' < st.groups.length
    · rw [getD_modifyAt_same _ _ _ _ hlen]
      simp only
      by_cases ht : t' = t
      · subst ht
        by_cases htlen : t' < (st.groups.getD g' default).tokens.length
        · rw [getD_modifyAt_same _ _ _ _ htlen]
        · rw [modifyAt_ge_length _ _ _ (by omega)]
      · rw [getD_modifyAt_ne _ _ _ _ _ ht]
    · rw [modifyAt_ge_length _ _ _ (by omega)]
  · rw [getD_modifyAt_ne _ _ _ _ _ hg]

theorem contentAt_modify_token_same (st : TokState) (g t : Nat) (nc : String)
    (hg : g < st.groups.length) (ht : t < tokensLength st g) :
    contentAt (modify_token st g t nc) g t = nc := by
  unfold contentAt getToken
  rw [modify_token_groups, getD_modifyAt_same _ _ _ _ hg]
  simp only
  rw [getD_modifyAt_same _ _ _ _ ht]

theorem contentAt_modify_token_ne (st : TokState) (g t : Nat) (nc : String) (g' t' : Nat)
    (h : ¬(g' = g ∧ t' = t)) :
    contentAt (modify_token st g t nc) g' t' = contentAt st g' t' := by
  unfold contentAt getToken
  rw [modify_token_groups]
  by_cases hg : g' = g
  · subst hg
    have ht : t' ≠ t := fun heq => h ⟨rfl, heq⟩
    by_cases hlen : g' < st.groups.length
    · rw [getD_modifyAt_same _ _ _ _ hlen]
      simp only
      rw [getD_modifyAt_ne _ _ _ _ _ ht]
    · rw [modifyAt_ge_length _ _ _ (by omega)]
  · rw [getD_modifyAt_ne _ _ _ _ _ hg]

theorem groups_length_applyCalls (st : TokState) (calls : List (Nat × Nat × String)) :
    (applyCalls st calls).groups.length = st.groups.length := by
  induction calls generalizing st with
  | nil => rfl
  | cons c rest ih =>
    show (applyCalls (modify_token st c.1 c.2.1 c.2.2) rest).groups.length = _
    rw [ih, groups_length_modify_token]

theorem tokensLength_applyCalls (st : TokState) (calls : List (Nat × Nat × String)) (g : Nat) :
    tokensLength (applyCalls st calls) g = tokensLength st g := by
  induction calls generalizing st with
  | nil => rfl
  | cons c rest ih =>
    show tokensLength (applyCalls (modify_token st c.1 c.2.1 c.2.2) rest) g = _
    rw [ih, tokensLength_modify_token]

theorem originalAt_applyCalls (st : TokState) (calls : List (Nat × Nat × String)) (g t : Nat) :
    originalAt (applyCalls st calls) g t = originalAt st g t := by
  induction calls generalizing st with
  | nil => rfl
  | cons c rest ih =>
    show originalAt (applyCalls (modify_token st c.1 c.2.1 c.2.2) rest) g t = _
    rw [ih, originalAt_modify_token]

theorem getToken_out_of_range (st : TokState) (g t : Nat)
    (h : ¬(g < st.groups.length ∧ t < tokensLength st g)) : getToken st g t = default := by
  unfold getToken
  unfold tokensLength at h
  by_cases hg : g < st.groups.length
  · have ht : (st.groups.getD g default).tokens.length ≤ t := by
      by_contra hlt
      push_neg at hlt
      exact h ⟨hg, hlt⟩
    exact List.getD_eq_default _ _ ht
  · have h1 : st.groups.getD g default = default := List.getD_eq_default _ _ (by omega)
    rw [h1]
    show (List.getD ([] : List SVGToken) t default) = default
    simp

theorem contentAt_out_of_range (st : TokState) (g t : Nat)
    (h : ¬(g < st.groups.length ∧ t < tokensLength st g)) :
    contentAt st g t = "" ∧ originalAt st g t = "" := by
  unfold contentAt originalAt
  rw [getToken_out_of_range st g t h]
  exact ⟨rfl, rfl⟩

/-- Behaviour of the inner reset loop: originals, group count and token
counts are preserved, and the contents of the visited window are restored
to their original values, everything else untouched. -/
theorem reset_token_loop_spec (gi : Nat) (c : Nat) : ∀ (t0 : Nat) (st : TokState),
    (∀ g' t', originalAt (reset_token_loop gi t0 c st) g' t' = originalAt st g' t') ∧
    ((reset_token_loop gi t0 c st).groups.length = st.groups.length) ∧
    (∀ g', tokensLength (reset_token_loop gi t0 c st) g' = tokensLength st g') ∧
    (∀ g' t', contentAt (reset_token_loop gi t0 c st) g' t'
       = if g' = gi ∧ t0 ≤ t' ∧ t' < t0 + c then originalAt st gi t'
         else contentAt st g' t') := by
  induction c with
  | zero =>
    intro t0 st
    refine ⟨fun g' t' => rfl, rfl, fun g' => rfl, fun g' t' => ?_⟩
    rw [if_neg (by rintro ⟨_, h1, h2⟩; omega)]
    rfl
  | succ c ih =>
    intro t0 st
    by_cases hcond : (getToken st gi t0).content ≠ (getToken st gi t0).original_content
    · have hred : reset_token_loop gi t0 (c + 1) st
          = reset_token_loop gi (t0 + 1) c
              (modify_token st gi t0 (getToken st gi t0).original_content) := by
        rw [show reset_token_loop gi t0 (c + 1) st
            = reset_token_loop gi (t0 + 1) c
                (if (getToken st gi t0).content ≠ (getToken st gi t0).original_content
                 then modify_token st gi t0 (getToken st gi t0).original_content else st)
          from rfl, if_pos hcond]
      have hrange : gi < st.groups.length ∧ t0 < tokensLength st gi := by
        by_contra h
        rw [getToken_out_of_range st gi t0 h] at hcond
        exact hcond rfl
      have hstep : contentAt (modify_token st gi t0 (getToken st gi t0).original_content) gi t0
          = originalAt st gi t0 :=
        contentAt_modify_token_same st gi t0 _ hrange.1 hrange.2
      obtain ⟨ihO, ihL, ihT, ihC⟩ :=
        ih (t0 + 1) (modify_token st gi t0 (getToken st gi t0).original_content)
      rw [hred]
      refine ⟨fun g' t' => (ihO g' t').trans (originalAt_modify_token _ _ _ _ _ _),
        ihL.trans (groups_length_modify_token _ _ _ _),
        fun g' => (ihT g').trans (tokensLength_modify_token _ _ _ _ _),
        fun g' t' => ?_⟩
      rw [ihC g' t']
      by_cases h1 : g' = gi ∧ t0 + 1 ≤ t' ∧ t' < t0 + 1 + c
      · rw [if_pos h1, if_pos ⟨h1.1, by omega, by omega⟩]
        exact originalAt_modify_token _ _ _ _ _ _
      · rw [if_neg h1]
        by_cases h2 : g' = gi ∧ t' = t0
        · obtain ⟨rfl, rfl⟩ := h2
          rw [if_pos ⟨rfl, by omega, by omega⟩]
          exact hstep
        · rw [if_neg (by
            rintro ⟨rfl, hle, hlt⟩
            exact h2 ⟨rfl, by omega⟩)]
          exact contentAt_modify_token_ne st gi t0 _ g' t' h2
    · have hred : reset_token_loop gi t0 (c + 1) st = reset_token_loop gi (t0 + 1) c st := by
        rw [show reset_token_loop gi t0 (c + 1) st
            = reset_token_loop gi (t0 + 1) c
                (if (getToken st gi t0).content ≠ (getToken st gi t0).original_content
                 then modify_token st gi t0 (getToken st gi t0).original_content else st)
          from rfl, if_neg hcond]
      push_neg at hcond
      obtain ⟨ihO, ihL, ihT, ihC⟩ := ih (t0 + 1) st
      rw [hred]
      refine ⟨ihO, ihL, ihT, fun g' t' => ?_⟩
      rw [ihC g' t']
      by_cases h1 : g' = gi ∧ t0 + 1 ≤ t' ∧ t' < t0 + 1 + c
      · rw [if_pos h1, if_pos ⟨h1.1, by omega, by omega⟩]
      · rw [if_neg h1]
        by_cases h2 : g' = gi ∧ t' = t0
        · obtain ⟨rfl, rfl⟩ := h2
          rw [if_pos ⟨rfl, by omega, by omega⟩]
          exact hcond
        · rw [if_neg (by
            rintro ⟨rfl, hle, hlt⟩
            exact h2 ⟨rfl, by omega⟩)]

/-- Behaviour of the outer reset loop: every token of the visited groups has
its content restored to its original value; everything else untouched. -/
theorem reset_group_loop_spec (c : Nat) : ∀ (g0 : Nat) (st : TokState),
    (∀ g' t', originalAt (reset_group_loop g0 c st) g' t' = originalAt st g' t') ∧
    ((reset_group_loop g0 c st).groups.length = st.groups.length) ∧
    (∀ g', tokensLength (reset_group_loop g0 c st) g' = tokensLength st g') ∧
    (∀ g' t', contentAt (reset_group_loop g0 c st) g' t'
       = if g0 ≤ g' ∧ g' < g0 + c then originalAt st g' t' else contentAt st g' t') := by
  induction c with
  | zero =>
    intro g0 st
    refine ⟨fun g' t' => rfl, rfl, fun g' => rfl, fun g' t' => ?_⟩
    rw [if_neg (by rintro ⟨h1, h2⟩; omega)]
    rfl
  | succ c ih =>
    intro g0 st
    have hred : reset_group_loop g0 (c + 1) st
        = reset_group_loop (g0 + 1) c (reset_token_loop g0 0 (tokensLength st g0) st) := rfl
    obtain ⟨rtlO, rtlL, rtlT, rtlC⟩ := reset_token_loop_spec g0 (tokensLength st g0) 0 st
    obtain ⟨ihO, ihL, ihT, ihC⟩ := ih (g0 + 1) (reset_token_loop g0 0 (tokensLength st g0) st)
    rw [hred]
    refine ⟨fun g' t' => (ihO g' t').trans (rtlO g' t'), ihL.trans rtlL,
      fun g' => (ihT g').trans (rtlT g'), fun g' t' => ?_⟩
    rw [ihC g' t']
    by_cases h1 : g0 + 1 ≤ g' ∧ g' < g0 + 1 + c
    · rw [if_pos h1, if_pos ⟨by omega, by omega⟩]
      exact rtlO g' t'
    · rw [if_neg h1]
      by_cases h2 : g' = g0
      · subst h2
        rw [if_pos ⟨by omega, by omega⟩, rtlC g' t']
        by_cases h3 : t' < tokensLength st g'
        · rw [if_pos ⟨rfl, by omega, by omega⟩]
        · rw [if_neg (by rintro ⟨_, _, hlt⟩; omega)]
          have hout := contentAt_out_of_range st g' t' (by rintro ⟨_, ht⟩; omega)
          rw [hout.1, hout.2]
      · rw [if_neg (by rintro ⟨hle, hlt⟩; exact h2 (by omega)), rtlC g' t',
          if_neg (by rintro ⟨heq, _, _⟩; exact h2 heq)]

/-- C3: for every state (in particular every parsed template) and every
finite sequence of `modify` calls on its tokens, of any kind,
`reset_modifications` afterwards restores every token's `content` to the
original value recorded at tokenization time, and `original_content` itself
is never changed by `modify` or `reset`; the group and token counts are
also unchanged throughout. -/
theorem c3_reset_round_trip (st : TokState) (calls : List (Nat × Nat × String)) :
    (∀ g t, originalAt (applyCalls st calls) g t = originalAt st g t) ∧
    (∀ g t, originalAt (reset_modifications (applyCalls st calls)) g t = originalAt st g t) ∧
    ((reset_modifications (applyCalls st calls)).groups.length = st.groups.length) ∧
    (∀ g, tokensLength (reset_modifications (applyCalls st calls)) g = tokensLength st g) ∧
    (∀ g t, contentAt (reset_modifications (applyCalls st calls)) g t = originalAt st g t) := by
  set st1 := applyCalls st calls with hst1
  have hlen1 : st1.groups.length = st.groups.length := groups_length_applyCalls st calls
  have htok1 : ∀ g, tokensLength st1 g = tokensLength st g := tokensLength_applyCalls st calls
  have horig1 : ∀ g t, originalAt st1 g t = originalAt st g t := originalAt_applyCalls st calls
  obtain ⟨rglO, rglL, rglT, rglC⟩ := reset_group_loop_spec st1.groups.length 0 st1
  have hreset : reset_modifications st1 = reset_group_loop 0 st1.groups.length st1 := rfl
  refine ⟨horig1, fun g t => ?_, ?_, fun g => ?_, fun g t => ?_⟩
  · rw [hreset, rglO g t, horig1 g t]
  · rw [hreset, rglL, hlen1]
  · rw [hreset, rglT g, htok1 g]
  · rw [hreset, rglC g t]
    by_cases hg : g < st1.groups.length
    · rw [if_pos ⟨by omega, by omega⟩, horig1 g t]
    · rw [if_neg (by rintro ⟨_, hlt⟩; omega)]
      have h1 := contentAt_out_of_range st1 g t (by rintro ⟨hlt, _⟩; omega)
      have h2 := contentAt_out_of_range st g t (by rintro ⟨hlt, _⟩; omega)
      rw [h1.1, h2.2]

/-! ### C6: item duplication ("copies") -/

theorem enumFrom_replicate_map (k : Nat) (im : α) (F : Nat → α → β) : ∀ (s : Nat),
    (List.enumFrom s (List.replicate k im)).map (fun q => F q.1 q.2)
      = (List.range' s k).map (fun i => F i im) := by
  induction k with
  | zero => intro s; rfl
  | succ k ih =>
    intro s
    simp only [List.replicate_succ, List.enumFrom, List.map_cons, List.range'_succ, ih (s + 1)]

/-- Enumerating a `copies`-fold replicated list assigns each original item
`j` the run of indices `j*k .. j*k+k-1`. -/
theorem enum_flatMap_replicate (k : Nat) (F : Nat → α → β) :
    ∀ (imgs : List α) (j0 : Nat),
    (List.enumFrom (j0 * k) (imgs.flatMap (fun im => List.replicate k im))).map
        (fun q => F q.1 q.2)
      = (List.enumFrom j0 imgs).flatMap
          (fun q => (List.range k).map (fun c => F (q.1 * k + c) q.2)) := by
  intro imgs
  induction imgs with
  | nil => intro j0; rfl
  | cons im rest ih =>
    intro j0
    rw [List.flatMap_cons, List.enumFrom_append, List.map_append, List.enumFrom,
      List.flatMap_cons]
    congr 1
    · rw [enumFrom_replicate_map k im F (j0 * k), List.range'_eq_map_range, List.map_map]
      rfl
    · rw [List.length_replicate]
      have h : j0 * k + k = (j0 + 1) * k := by ring
      rw [h, ih (j0 + 1)]

theorem enum_flatMap_replicate0 (k : Nat) (F : Nat → α → β) (imgs : List α) :
    ((imgs.flatMap (fun im => List.replicate k im)).enum).map (fun q => F q.1 q.2)
      = imgs.enum.flatMap (fun q => (List.range k).map (fun c => F (q.1 * k + c) q.2)) := by
  have h := enum_flatMap_replicate k F imgs 0
  rw [show (0 : Nat) * k = 0 from by ring] at h
  exact h

theorem flatMap_congr_fun (l : List α) (f g : α → List β) (hfg : ∀ a, f a = g a) :
    l.flatMap f = l.flatMap g := by
  induction l with
  | nil => rfl
  | cons a as ih => simp only [List.flatMap_cons, hfg, ih]

/-- The expected shape of one expanded item: same label and image, fresh
meta with the given set name/index, card, copy and global indices. -/
def c6_expected_item (name : String) (si : Nat) (copies : Int) (item : Item)
    (card copy glob : Nat) : Item :=
  { label := item.label, image := item.image,
    meta := some { set := some name, set_index := some si,
                   card_index := some (card : Int), copy_index := some (copy : Int),
                   global_index := some (glob : Int), copies := some copies,
                   placeholder := false } }

/-- C6: for every input and every `copies >= 1`, the copies/annotation stage
expands each real item, before slicing, into exactly `copies` consecutive
items sharing label and image but carrying distinct `copyIndex` values
`0..copies-1` and an identical `cardIndex` (the item's original index in its
set); and any run configured with `copies < 1` is rejected as a hard input
error ("Copies must be at least 1.") before any page work. -/
theorem c6_copies_expansion :
    (∀ (processed_sets : List (String × List Item)) (copies : Int), 1 ≤ copies →
      (prepare_sets processed_sets copies).1
        = processed_sets.enum.map (fun p =>
            (p.2.1, p.2.2.enum.flatMap (fun q =>
              (List.range copies.toNat).map (fun c =>
                c6_expected_item p.2.1 p.1 copies q.2 q.1 c
                  (q.1 * copies.toNat + c)))))) ∧
    (∀ (processed_sets : List (String × List Item)) (slots_per_page slice_size : Nat)
       (parity : Int) (cell_stack_mode : Bool) (copies : Int), copies < 1 →
      process_image_set processed_sets slots_per_page slice_size parity cell_stack_mode copies
        = .error "Copies must be at least 1.") := by
  constructor
  · intro processed_sets copies hc
    set k : Nat := copies.toNat with hk
    have hcast : (k : Int) = copies := Int.toNat_of_nonneg (by omega)
    have hkpos : 1 ≤ k := by omega
    have hne : copies ≠ 0 := by omega
    have hexp : (if copies > 1 then apply_copies processed_sets copies else processed_sets)
        = processed_sets.map (fun p =>
            (p.1, p.2.flatMap (fun im => List.replicate k im))) := by
      by_cases hgt : copies > 1
      · rw [if_pos hgt]
        unfold apply_copies
        rw [if_neg (by omega)]
      · rw [if_neg hgt]
        have h1 : k = 1 := by omega
        rw [h1]
        simp [List.replicate]
    show (annotate_sets_with_meta _ copies).1 = _
    rw [hexp]
    unfold annotate_sets_with_meta
    simp only
    rw [List.enum_map, List.map_map]
    apply List.map_congr_left
    rintro ⟨si, name, imgs⟩ _
    simp only [Function.comp, Prod.map, id]
    refine congrArg (fun l => (name, l)) ?_
    refine (enum_flatMap_replicate0 k (fun idx item =>
      let m : Meta :=
        { set := some name, set_index := some si,
          card_index := some (if copies ≠ 0 then Int.fdiv idx copies else (idx : Int)),
          copy_index := some (if copies ≠ 0 then Int.fmod idx copies else 0),
          global_index := some (idx : Int), copies := some copies,
          placeholder := false }
      { item with meta := some m }) imgs).trans ?_
    apply flatMap_congr_fun
    intro q
    apply List.map_congr_left
    intro c hc'
    have hclt : c < k := List.mem_range.mp hc'
    have harith : q.1 * k + c = k * q.1 + c := by ring
    have hdiv : Int.fdiv ((q.1 * k + c : Nat) : Int) copies = (q.1 : Int) := by
      rw [← hcast, ← Int.ofNat_fdiv]
      rw [harith, Nat.mul_add_div (by omega), Nat.div_eq_of_lt hclt, Nat.add_zero]
    have hmod : Int.fmod ((q.1 * k + c : Nat) : Int) copies = (c : Int) := by
      rw [← hcast, ← Int.ofNat_fmod]
      rw [harith, Nat.mul_add_mod, Nat.mod_eq_of_lt hclt]
    cases q.2
    simp only [c6_expected_item, hdiv, hmod, ne_eq, hne, not_false_eq_true, if_true]
  · intro processed_sets slots_per_page slice_size parity cell_stack_mode copies hcc
    unfold process_image_set
    rw [if_pos hcc]

/-- Witness for C6 at concrete inputs: one item with `copies = 3` yields
`copyIndex` `0, 1, 2` sharing `cardIndex` `0`; and `copies = 0` is
rejected. -/
theorem c6_witness :
    (prepare_sets [("A", [{ label := "x", image := "i", meta := none }])] 3).1
      = [("A",
          [c6_expected_item "A" 0 3 { label := "x", image := "i", meta := none } 0 0 0,
           c6_expected_item "A" 0 3 { label := "x", image := "i", meta := none } 0 1 1,
           c6_expected_item "A" 0 3 { label := "x", image := "i", meta := none } 0 2 2])] ∧
    process_image_set [("A", [{ label := "x", image := "i", meta := none }])] 6 1 1 false 0
      = .error "Copies must be at least 1." := by
  constructor
  · rw [c6_copies_expansion.1 [("A", [{ label := "x", image := "i", meta := none }])] 3
      (by decide)]
    rfl
  · exact c6_copies_expansion.2 _ 6 1 1 false 0 (by decide)

/-! ### C8: page plan shape and provenance -/

theorem getD_mem (l : List α) (i : Nat) (d : α) (h : i < l.length) : l.getD i d ∈ l := by
  induction l generalizing i with
  | nil => simp at h
  | cons a as ih =>
    cases i with
    | zero => simp
    | succ n => simp only [List.getD_cons_succ]; exact List.mem_cons_of_mem _ (ih n (by simpa using h))

theorem snd_mem_enumFrom (l : List α) : ∀ (n : Nat) (p : Nat × α), p ∈ List.enumFrom n l → p.2 ∈ l := by
  induction l with
  | nil => intro n p h; simp [List.enumFrom] at h
  | cons a as ih =>
    intro n p h
    rcases List.mem_cons.mp h with h | h
    · subst h; simp
    · exact List.mem_cons_of_mem _ (ih (n + 1) p h)

theorem snd_mem_enum (l : List α) (p : Nat × α) (h : p ∈ l.enum) : p.2 ∈ l :=
  snd_mem_enumFrom l 0 p h

/-- Generic invariant preservation through a left fold. -/
theorem foldl_inv {σ : Type u} {α : Type v} (f : σ → α → σ) (P : σ → Prop) (l : List α)
    (s : σ) (hstep : ∀ s a, a ∈ l → P s → P (f s a)) (h0 : P s) : P (l.foldl f s) := by
  induction l generalizing s with
  | nil => exact h0
  | cons a as ih =>
    exact ih (f s a) (fun s' a' ha' hP => hstep s' a' (List.mem_cons_of_mem _ ha') hP)
      (hstep s a (by simp) h0)

/-- A fold whose every step grows the item list by `m` elements. -/
theorem foldl_items_length (l : List α) (f : (List Item × List SpaceEntry) → α →
    (List Item × List SpaceEntry)) (m : Nat)
    (h : ∀ acc a, a ∈ l → (f acc a).1.length = acc.1.length + m) :
    ∀ acc, ((l.foldl f acc).1.length = acc.1.length + l.length * m) := by
  induction l with
  | nil => intro acc; simp
  | cons a as ih =>
    intro acc
    rw [List.foldl_cons, ih (fun acc' a' ha' => h acc' a' (List.mem_cons_of_mem _ ha')) (f acc a),
      h acc a (by simp)]
    simp only [List.length_cons]
    ring

/-- The parallel items/space invariant: one space record per slot, carrying
the slot index and the occupying item's set/card/copy indices and
placeholder flag. -/
def parallelAcc (acc : List Item × List SpaceEntry) : Prop :=
  acc.2.length = acc.1.length ∧
  ∀ j, j < acc.1.length →
    (acc.2.getD j default).slot = j ∧
    (acc.2.getD j default).set_index = (metaOf (acc.1.getD j default)).set_index ∧
    (acc.2.getD j default).card_index = (metaOf (acc.1.getD j default)).card_index ∧
    (acc.2.getD j default).copy_index = (metaOf (acc.1.getD j default)).copy_index ∧
    (acc.2.getD j default).placeholder = (metaOf (acc.1.getD j default)).placeholder

/-- The same invariant read off a finished `PagePlan`. -/
def planParallel (plan : PagePlan) : Prop :=
  plan.space.length = plan.items.length ∧
  ∀ j, j < plan.items.length →
    (plan.space.getD j default).slot = j ∧
    (plan.space.getD j default).set_index = (metaOf (plan.items.getD j default)).set_index ∧
    (plan.space.getD j default).card_index = (metaOf (plan.items.getD j default)).card_index ∧
    (plan.space.getD j default).copy_index = (metaOf (plan.items.getD j default)).copy_index ∧
    (plan.space.getD j default).placeholder = (metaOf (plan.items.getD j default)).placeholder

theorem pushItem_parallel (acc : List Item × List SpaceEntry) (item : Item)
    (st cl : Nat) (ex : SpaceExtra) (h : parallelAcc acc) :
    parallelAcc (pushItem acc item st cl ex) := by
  obtain ⟨hlen, hj⟩ := h
  constructor
  · simp [pushItem, hlen]
  · intro j hjl
    simp only [pushItem, List.length_append, List.length_cons, List.length_nil] at hjl
    by_cases hlt : j < acc.1.length
    · have h1 : (pushItem acc item st cl ex).2.getD j default = acc.2.getD j default := by
        simp only [pushItem]
        exact List.getD_append _ _ _ _ (by omega)
      have h2 : (pushItem acc item st cl ex).1.getD j default = acc.1.getD j default := by
        simp only [pushItem]
        exact List.getD_append _ _ _ _ hlt
      rw [h1, h2]
      exact hj j hlt
    · have hje : j = acc.1.length := by omega
      have h1 : (pushItem acc item st cl ex).2.getD j default
          = build_space_entry item acc.1.length st cl ex := by
        simp only [pushItem]
        rw [List.getD_append_right _ _ _ _ (by omega), hje, hlen]
        simp
      have h2 : (pushItem acc item st cl ex).1.getD j default = item := by
        simp only [pushItem]
        rw [List.getD_append_right _ _ _ _ (by omega), hje]
        simp
      rw [h1, h2, hje]
      simp [build_space_entry]

/-- Each step of both page builders grows the item list by one. -/
theorem pushItem_length (acc : List Item × List SpaceEntry) (item : Item)
    (st cl : Nat) (ex : SpaceExtra) :
    (pushItem acc item st cl ex).1.length = acc.1.length + 1 := by
  simp [pushItem]

theorem build_page_plan_parallel (rows : List Slice) (sc rps ss : Nat) :
    planParallel (build_page_plan rows sc rps ss) := by
  have h : parallelAcc (rows.enum.foldl (fun acc rp =>
      rp.2.items.enum.foldl (fun acc2 cp =>
        pushItem acc2 cp.2 (if sc > 1 then rp.1 / rps else 0)
          ((if sc > 1 then rp.1 % rps else rp.1) * ss + cp.1)
          (.strip rp.1 cp.1 rp.2.set)) acc) (([] : List Item), ([] : List SpaceEntry))) := by
    apply foldl_inv
    · intro acc rp _ hP
      apply foldl_inv
      · intro acc2 cp _ hP2
        exact pushItem_parallel _ _ _ _ _ hP2
      · exact hP
    · exact ⟨rfl, fun j hj => by simp at hj⟩
  exact ⟨h.1, h.2⟩

theorem build_page_plan_items_length (rows : List Slice) (sc rps ss : Nat)
    (h : ∀ sl ∈ rows, sl.items.length = ss) :
    (build_page_plan rows sc rps ss).items.length = rows.length * ss := by
  have h1 := foldl_items_length rows.enum (fun acc rp =>
      rp.2.items.enum.foldl (fun acc2 cp =>
        pushItem acc2 cp.2 (if sc > 1 then rp.1 / rps else 0)
          ((if sc > 1 then rp.1 % rps else rp.1) * ss + cp.1)
          (.strip rp.1 cp.1 rp.2.set)) acc) ss
    (fun acc rp hrp => by
      have h2 := foldl_items_length rp.2.items.enum (fun acc2 cp =>
        pushItem acc2 cp.2 (if sc > 1 then rp.1 / rps else 0)
          ((if sc > 1 then rp.1 % rps else rp.1) * ss + cp.1)
          (.strip rp.1 cp.1 rp.2.set)) 1
        (fun acc2 cp _ => pushItem_length _ _ _ _ _) acc
      rw [h2, List.enum_length, h rp.2 (snd_mem_enum _ _ hrp), Nat.mul_one])
    (([] : List Item), ([] : List SpaceEntry))
  show (rows.enum.foldl _ (([] : List Item), ([] : List SpaceEntry))).1.length = _
  rw [h1, List.enum_length, List.length_nil, Nat.zero_add]

/-- All pages of the grid keep `spp` rows, each row a slice of exactly `ss`
items. -/
def gridInv (spp ss : Nat) (grid : List (List Slice)) : Prop :=
  ∀ page ∈ grid, page.length = spp ∧ ∀ sl ∈ page, sl.items.length = ss

theorem mem_setAt (l : List α) (i : Nat) (x y : α) (h : y ∈ setAt l i x) : y ∈ l ∨ y = x := by
  rcases mem_modifyAt l i _ y h with h' | ⟨z, _, hz⟩
  · exact Or.inl h'
  · exact Or.inr hz

theorem take_slice_items_length (all : List Slice) (ph : Slice) (idx ss : Nat)
    (hall : ∀ sl ∈ all, sl.items.length = ss) (hph : ph.items.length = ss) :
    (take_slice all ph idx).1.items.length = ss := by
  unfold take_slice
  split
  · exact hall _ (getD_mem all idx ph (by omega))
  · exact hph

theorem fill_row_loop_gridInv (all : List Slice) (ph : Slice) (spp rps si pi ss : Nat)
    (hall : ∀ sl ∈ all, sl.items.length = ss) (hph : ph.items.length = ss) :
    ∀ (c rpos : Nat) (st : List (List Slice) × Nat), gridInv spp ss st.1 →
    gridInv spp ss (fill_row_loop all ph spp rps si pi rpos c st).1 := by
  intro c
  induction c with
  | zero => intro rpos st h; exact h
  | succ c ih =>
    intro rpos st h
    rw [fill_row_loop]
    split
    · exact ih (rpos + 1) st h
    · apply ih
      intro page hpage
      rcases mem_modifyAt _ _ _ page hpage with h' | ⟨row, hrow, hpage'⟩
      · exact h page h'
      · subst hpage'
        obtain ⟨hrl, hrs⟩ := h row hrow
        constructor
        · simpa [setAt] using hrl
        · intro sl hsl
          rcases mem_setAt _ _ _ _ hsl with h' | h'
          · exact hrs sl h'
          · subst h'
            exact take_slice_items_length all ph st.2 ss hall hph

theorem fill_page_loop_gridInv (all : List Slice) (ph : Slice) (spp rps si ss : Nat)
    (hall : ∀ sl ∈ all, sl.items.length = ss) (hph : ph.items.length = ss) :
    ∀ (c p : Nat) (st : List (List Slice) × Nat), gridInv spp ss st.1 →
    gridInv spp ss (fill_page_loop all ph spp rps si p c st).1 := by
  intro c
  induction c with
  | zero => intro p st h; exact h
  | succ c ih =>
    intro p st h
    rw [fill_page_loop]
    exact ih (p + 1) _ (fill_row_loop_gridInv all ph spp rps si p ss hall hph rps 0 st h)

theorem fill_stack_loop_gridInv (all : List Slice) (ph : Slice) (spp rps pc ss : Nat)
    (hall : ∀ sl ∈ all, sl.items.length = ss) (hph : ph.items.length = ss) :
    ∀ (c s : Nat) (st : List (List Slice) × Nat), gridInv spp ss st.1 →
    gridInv spp ss (fill_stack_loop all ph spp rps pc s c st).1 := by
  intro c
  induction c with
  | zero => intro s st h; exact h
  | succ c ih =>
    intro s st h
    rw [fill_stack_loop]
    exact ih (s + 1) _ (fill_page_loop_gridInv all ph spp rps s ss hall hph pc 0 st h)

theorem make_placeholder_slice_items_length (ph : String) (ss : Nat) (lu : SetLookup) :
    (make_placeholder_slice ph ss lu).items.length = ss := by
  simp [make_placeholder_slice]

theorem buildCellPage_parallel (padded : List (Option String × List Item))
    (gs : List (Option String)) (gi pi P limit : Nat) (ph : String) (lu : SetLookup) :
    planParallel (buildCellPage padded gs gi pi P limit ph lu) := by
  have h : parallelAcc ((List.range P).foldl (fun acc stack_idx =>
      padded.enum.foldl (fun acc2 cp =>
        pushItem acc2
          (if cp.2.1.isSome ∧ pi + stack_idx * limit < cp.2.2.length
            then cp.2.2.getD (pi + stack_idx * limit) default
            else build_placeholder_card ph cp.2.1 lu)
          stack_idx cp.1 (.cellstack gi cp.2.1 pi)) acc)
      (([] : List Item), ([] : List SpaceEntry))) := by
    apply foldl_inv
    · intro acc a _ hP
      apply foldl_inv
      · intro acc2 cp _ hP2
        exact pushItem_parallel _ _ _ _ _ hP2
      · exact hP
    · exact ⟨rfl, fun j hj => by simp at hj⟩
  exact ⟨h.1, h.2⟩

theorem buildCellPage_items_length (padded : List (Option String × List Item))
    (gs : List (Option String)) (gi pi P limit : Nat) (ph : String) (lu : SetLookup) :
    (buildCellPage padded gs gi pi P limit ph lu).items.length = P * padded.length := by
  have h1 := foldl_items_length (List.range P) (fun acc stack_idx =>
      padded.enum.foldl (fun acc2 cp =>
        pushItem acc2
          (if cp.2.1.isSome ∧ pi + stack_idx * limit < cp.2.2.length
            then cp.2.2.getD (pi + stack_idx * limit) default
            else build_placeholder_card ph cp.2.1 lu)
          stack_idx cp.1 (.cellstack gi cp.2.1 pi)) acc) padded.length
    (fun acc a _ => by
      have h2 := foldl_items_length padded.enum (fun acc2 cp =>
        pushItem acc2
          (if cp.2.1.isSome ∧ pi + a * limit < cp.2.2.length
            then cp.2.2.getD (pi + a * limit) default
            else build_placeholder_card ph cp.2.1 lu)
          a cp.1 (.cellstack gi cp.2.1 pi)) 1
        (fun acc2 cp _ => pushItem_length _ _ _ _ _) acc
      rw [h2, List.enum_length, Nat.mul_one])
    (([] : List Item), ([] : List SpaceEntry))
  show ((List.range P).foldl _ (([] : List Item), ([] : List SpaceEntry))).1.length = _
  rw [h1, List.length_range, List.length_nil, Nat.zero_add, Nat.mul_comm]

theorem mem_chunked_length_le (l : List α) (k : Nat) (g : List α) (h : g ∈ chunked l k) :
    g.length ≤ k := by
  unfold chunked at h
  obtain ⟨j, _, rfl⟩ := List.mem_map.mp h
  simp [List.length_take]

/-- Invariants of every page built from the filled grid of the strip
layouts. -/
theorem strip_plans_inv (all_slices : List Slice) (ss spp rps pc sc : Nat)
    (ph : String) (lu : SetLookup)
    (hsz : ∀ sl ∈ all_slices, sl.items.length = ss) :
    ∀ plan ∈ (fill_stack_loop all_slices (make_placeholder_slice ph ss lu) spp rps pc 0 sc
        (List.replicate pc (List.replicate spp (make_placeholder_slice ph ss lu)),
          0)).1.enum.map (fun p => build_page_plan p.2 sc rps ss),
      plan.items.length = spp * ss ∧ planParallel plan := by
  intro plan hplan
  obtain ⟨p, hp, rfl⟩ := List.mem_map.mp hplan
  have hgrid : gridInv spp ss
      (fill_stack_loop all_slices (make_placeholder_slice ph ss lu) spp rps pc 0 sc
        (List.replicate pc (List.replicate spp (make_placeholder_slice ph ss lu)), 0)).1 := by
    apply fill_stack_loop_gridInv _ _ _ _ _ _ hsz (make_placeholder_slice_items_length ph ss lu)
    intro page hpage
    rw [List.eq_of_mem_replicate hpage]
    refine ⟨by simp, fun sl hsl => ?_⟩
    rw [List.eq_of_mem_replicate hsl]
    exact make_placeholder_slice_items_length ph ss lu
  have hrows := hgrid p.2 (snd_mem_enum _ _ hp)
  constructor
  · rw [build_page_plan_items_length p.2 _ _ _ hrows.2, hrows.1]
  · exact build_page_plan_parallel _ _ _ _

/-- C8, amended: every PagePlan produced by the strip layouts (sequential and
parity-striped) on slices of uniform size `sliceSize` has
`(slotsPerPage / sliceSize) * sliceSize` items — which equals `slotsPerPage`
exactly when `sliceSize` divides `slotsPerPage` — and every PagePlan of the
cell-stacked layout has exactly `slotsPerPage` items; in both cases the
`space` sequence is parallel to `items` with one record per slot carrying
the slot index and the occupying item's set/card/copy indices and
placeholder flag. -/
theorem c8_pageplan_invariants :
    (∀ (all_slices : List Slice) (slots_per_page slice_size : Nat) (ph : String)
       (parity : Int) (lu : SetLookup) (plans : List PagePlan) (cells : Nat),
       (∀ sl ∈ all_slices, sl.items.length = slice_size) →
       group_slices_into_pages all_slices slots_per_page slice_size ph parity lu
         = some (plans, cells) →
       ∀ plan ∈ plans,
         plan.items.length = (slots_per_page / slice_size) * slice_size ∧
         planParallel plan) ∧
    (∀ (processed_sets : List (String × List Item)) (slots_per_page : Nat)
       (cell_stack : Int) (ph : String) (lu : SetLookup) (plans : List PagePlan),
       build_cell_stack_page_plans processed_sets slots_per_page cell_stack ph lu
         = some plans →
       ∀ plan ∈ plans, plan.items.length = slots_per_page ∧ planParallel plan) := by
  constructor
  · intro all_slices slots_per_page slice_size ph parity lu plans cells hsz heq
    simp only [group_slices_into_pages] at heq
    split at heq
    · exact absurd heq (by simp)
    split at heq
    · exact absurd heq (by simp)
    split at heq
    · rw [Option.some.injEq, Prod.mk.injEq] at heq
      intro plan hplan
      rw [← heq.1] at hplan
      simp at hplan
    split at heq
    · split at heq
      · exact absurd heq (by simp)
      · rw [Option.some.injEq, Prod.mk.injEq] at heq
        intro plan hplan
        rw [← heq.1] at hplan
        exact strip_plans_inv all_slices slice_size _ _ _ _ ph lu hsz plan hplan
    · split at heq
      · exact absurd heq (by simp)
      · rw [Option.some.injEq, Prod.mk.injEq] at heq
        intro plan hplan
        rw [← heq.1] at hplan
        exact strip_plans_inv all_slices slice_size _ _ _ _ ph lu hsz plan hplan
  · intro processed_sets slots_per_page cell_stack ph lu plans heq
    simp only [build_cell_stack_page_plans] at heq
    split at heq
    · exact absurd heq (by simp)
    split at heq
    · exact absurd heq (by simp)
    split at heq
    · exact absurd heq (by simp)
    rw [Option.some.injEq] at heq
    intro plan hplan
    rw [← heq] at hplan
    obtain ⟨gp, hgp, hpl⟩ := List.mem_flatMap.mp hplan
    split at hpl
    · simp at hpl
    split at hpl
    · simp at hpl
    obtain ⟨pi, _, rfl⟩ := List.mem_map.mp hpl
    have hle : gp.2.length ≤ slots_per_page / cell_stack.toNat :=
      mem_chunked_length_le _ _ _ (snd_mem_enum _ _ hgp)
    constructor
    · rw [buildCellPage_items_length]
      rw [List.length_append, List.length_replicate]
      have hpad : gp.2.length + (slots_per_page / cell_stack.toNat - gp.2.length)
          = slots_per_page / cell_stack.toNat := by omega
      rw [hpad]
      have hdvd : cell_stack.toNat ∣ slots_per_page := by
        apply Nat.dvd_of_mod_eq_zero
        omega
      exact Nat.mul_div_cancel' hdvd
    · exact buildCellPage_parallel _ _ _ _ _ _ _ _

def c8items : List Item :=
  (List.range 4).map (fun i => { label := toString i, image := "im", meta := none })

def c8prep := prepare_sets [("A", c8items)] 1

def c8slices := collect_all_slices c8prep.1 4 ONEPIXEL c8prep.2

/-- C8, counterexample: with a template of 6 slots and a declared slice size
of 4, the sequential layout (slices produced by `make_slices`, so all of
uniform length 4) yields a page plan with only
`(6 / 4) * 4 = 4` items, not `slotsPerPage = 6` — so "items sequence whose
length equals slots-per-page" fails for every layout policy. -/
theorem c8_counterexample :
    (group_slices_into_pages c8slices 6 4 ONEPIXEL 1 c8prep.2).map
        (fun r => r.1.map (fun p => p.items.length)) = some [4] ∧
    (∀ sl ∈ c8slices, sl.items.length = 4) ∧
    (4 : Nat) ≠ 6 :=
  ⟨by decide, by decide, by decide⟩

def c8w_sets : List (String × List Item) :=
  [("A", [{ label := "a", image := "i1", meta := none },
          { label := "b", image := "i2", meta := none }])]

def c8w_prep := prepare_sets c8w_sets 1

def c8w_slices := collect_all_slices c8w_prep.1 1 ONEPIXEL c8w_prep.2

def c8w_result := (group_slices_into_pages c8w_slices 2 1 ONEPIXEL 1 c8w_prep.2).getD ([], 0)

/-- Witness for C8 amended at a concrete run: 2 slots per page, slice size 1,
two items — the produced page has `(2 / 1) * 1` items and a parallel space
sequence. -/
theorem c8_witness :
    (c8w_result.1.getD 0 default).items.length = (2 / 1) * 1 ∧
    planParallel (c8w_result.1.getD 0 default) := by
  have h := c8_pageplan_invariants.1 c8w_slices 2 1 ONEPIXEL 1 c8w_prep.2 c8w_result.1
    c8w_result.2 (by decide) rfl
  exact h _ (getD_mem _ 0 default (by decide))

/-! ### C2: sequential layout -/

theorem enum_map_snd (l : List α) (f : α → β) :
    l.enum.map (fun p => f p.2) = l.map f := by
  suffices h : ∀ (n : Nat), (List.enumFrom n l).map (fun p => f p.2) = l.map f from h 0
  induction l with
  | nil => intro n; rfl
  | cons a as ih => intro n; simp [List.enumFrom, ih (n + 1)]

theorem getD_drop (l : List α) : ∀ (n i : Nat) (d : α), (l.drop n).getD i d = l.getD (n + i) d := by
  induction l with
  | nil => intro n i d; simp
  | cons a as ih =>
    intro n i d
    cases n with
    | zero => simp
    | succ m =>
      rw [List.drop_succ_cons, ih m i d]
      have h1 : m + 1 + i = (m + i) + 1 := by omega
      rw [h1]
      simp [List.getD_cons_succ]

theorem getD_take (l : List α) : ∀ (n i : Nat) (d : α), i < n → (l.take n).getD i d = l.getD i d := by
  induction l with
  | nil => intro n i d _; simp
  | cons a as ih =>
    intro n i d h
    cases n with
    | zero => omega
    | succ m =>
      rw [List.take_succ_cons]
      cases i with
      | zero => rfl
      | succ j => exact ih m j d (by omega)

theorem getD_replicate (a d : α) : ∀ (n i : Nat), i < n → (List.replicate n a).getD i d = a := by
  intro n
  induction n with
  | zero => intro i h; omega
  | succ m ih =>
    intro i h
    rw [List.replicate_succ]
    cases i with
    | zero => rfl
    | succ j => exact ih j (by omega)

/-- Overwrite consecutive positions of a row, starting at `pos`, with the
given values. -/
def writeVals : List α → Nat → List α → List α
  | row, _, [] => row
  | row, pos, v :: vs => writeVals (setAt row pos v) (pos + 1) vs

theorem writeVals_cons_shift : ∀ (vals : List α) (a : α) (l : List α) (pos : Nat),
    writeVals (a :: l) (pos + 1) vals = a :: writeVals l pos vals := by
  intro vals
  induction vals with
  | nil => intro a l pos; rfl
  | cons w ws ih =>
    intro a l pos
    show writeVals (setAt (a :: l) (pos + 1) w) (pos + 2) ws = _
    show writeVals (a :: setAt l pos w) (pos + 2) ws = _
    rw [ih a (setAt l pos w) (pos + 1)]
    rfl

theorem writeVals_full : ∀ (vals row : List α), row.length = vals.length →
    writeVals row 0 vals = vals := by
  intro vals
  induction vals with
  | nil =>
    intro row h
    rw [List.length_nil, List.length_eq_zero] at h
    subst h
    rfl
  | cons v vs ih =>
    intro row h
    cases row with
    | nil => simp at h
    | cons r rs =>
      show writeVals (setAt (r :: rs) 0 v) 1 vs = v :: vs
      show writeVals (v :: rs) 1 vs = v :: vs
      rw [show (1 : Nat) = 0 + 1 from rfl, writeVals_cons_shift vs v rs 0,
        ih rs (by simpa using h)]

/-- The slice the sequential stream yields at global position `i`: a real
slice while the stream lasts, a full placeholder slice after. -/
def tsVal (all_slices : List Slice) (ph : Slice) (i : Nat) : Slice :=
  if i < all_slices.length then all_slices.getD i ph else ph

/-- The `spp` stream values laid into one page starting at position `i`. -/
def valsAt (all_slices : List Slice) (ph : Slice) (spp i : Nat) : List Slice :=
  (List.range spp).map (fun r => tsVal all_slices ph (i + r))

theorem tsVal_min_add (all_slices : List Slice) (ph : Slice) (x m : Nat) :
    tsVal all_slices ph (min all_slices.length x + m) = tsVal all_slices ph (x + m) := by
  unfold tsVal
  by_cases h : x ≤ all_slices.length
  · rw [Nat.min_eq_right h]
  · have h1 : min all_slices.length x = all_slices.length := by omega
    rw [h1, if_neg (by omega), if_neg (by omega)]

theorem valsAt_min (all_slices : List Slice) (ph : Slice) (spp x : Nat) :
    valsAt all_slices ph spp (min all_slices.length x) = valsAt all_slices ph spp x := by
  unfold valsAt
  apply List.map_congr_left
  intro r _
  exact tsVal_min_add all_slices ph x r

theorem valsAt_length (all_slices : List Slice) (ph : Slice) (spp i : Nat) :
    (valsAt all_slices ph spp i).length = spp := by
  simp [valsAt]

theorem take_slice_eq (all_slices : List Slice) (ph : Slice) (idx : Nat)
    (hidx : idx ≤ all_slices.length) :
    take_slice all_slices ph idx
      = (tsVal all_slices ph idx, min all_slices.length (idx + 1)) := by
  unfold take_slice tsVal
  by_cases h : idx < all_slices.length
  · rw [if_pos h, if_pos h]
    have h1 : min all_slices.length (idx + 1) = idx + 1 := by omega
    rw [h1]
  · rw [if_neg h, if_neg h]
    have h1 : min all_slices.length (idx + 1) = idx := by omega
    rw [h1]

theorem fill_row_loop_char (all_slices : List Slice) (ph : Slice) (spp pi : Nat) :
    ∀ (c rpos : Nat) (grid : List (List Slice)) (idx : Nat),
      idx ≤ all_slices.length → rpos + c ≤ spp →
      fill_row_loop all_slices ph spp spp 0 pi rpos c (grid, idx)
        = (modifyAt grid pi (fun row => writeVals row rpos
            ((List.range c).map (fun k => tsVal all_slices ph (idx + k)))),
           min all_slices.length (idx + c)) := by
  intro c
  induction c with
  | zero =>
    intro rpos grid idx hidx _
    show (grid, idx) = _
    have h1 : min all_slices.length (idx + 0) = idx := by omega
    rw [h1, List.range_zero, List.map_nil,
      show (fun row => writeVals row rpos ([] : List Slice)) = fun row => row from rfl,
      modifyAt_id]
  | succ c ih =>
    intro rpos grid idx hidx hle
    have hrow : ¬ (0 * spp + rpos ≥ spp) := by omega
    rw [fill_row_loop, if_neg hrow, take_slice_eq all_slices ph idx hidx,
      ih (rpos + 1) _ _ (by omega) (by omega)]
    have h2 : min all_slices.length (min all_slices.length (idx + 1) + c)
        = min all_slices.length (idx + (c + 1)) := by omega
    rw [h2, modifyAt_modifyAt]
    have h3 : (List.range c).map (fun k => tsVal all_slices ph (min all_slices.length (idx + 1) + k))
        = (List.range c).map (fun k => tsVal all_slices ph (idx + (k + 1))) := by
      apply List.map_congr_left
      intro k _
      rw [tsVal_min_add]
      have h4 : idx + 1 + k = idx + (k + 1) := by omega
      rw [h4]
    have h5 : (List.range (c + 1)).map (fun k => tsVal all_slices ph (idx + k))
        = tsVal all_slices ph idx
          :: (List.range c).map (fun k => tsVal all_slices ph (idx + (k + 1))) := by
      rw [List.range_succ_eq_map, List.map_cons, List.map_map]
      have h6 : idx + 0 = idx := by omega
      rw [h6]
      rfl
    rw [h5]
    have h7 : 0 * spp + rpos = rpos := by omega
    rw [h7, h3]
    rfl

/-- Accumulated effect of the page loop: successively overwrite whole pages
`p, p+1, ...` of the grid with consecutive stream slices. -/
def pageWriteIter (all_slices : List Slice) (ph : Slice) (spp : Nat) :
    List (List Slice) → Nat → Nat → Nat → List (List Slice)
  | grid, _, 0, _ => grid
  | grid, p, c + 1, idx =>
    pageWriteIter all_slices ph spp
      (modifyAt grid p (fun row => writeVals row 0 (valsAt all_slices ph spp idx)))
      (p + 1) c (min all_slices.length (idx + spp))

theorem fill_page_loop_char (all_slices : List Slice) (ph : Slice) (spp : Nat) :
    ∀ (c p : Nat) (grid : List (List Slice)) (idx : Nat),
      idx ≤ all_slices.length →
      fill_page_loop all_slices ph spp spp 0 p c (grid, idx)
        = (pageWriteIter all_slices ph spp grid p c idx,
           min all_slices.length (idx + c * spp)) := by
  intro c
  induction c with
  | zero =>
    intro p grid idx hidx
    show (grid, idx) = _
    have h1 : min all_slices.length (idx + 0 * spp) = idx := by
      have h2 : 0 * spp = 0 := Nat.zero_mul spp
      omega
    rw [h1]
    rfl
  | succ c ih =>
    intro p grid idx hidx
    rw [fill_page_loop,
      fill_row_loop_char all_slices ph spp p spp 0 grid idx hidx (by omega),
      ih (p + 1) _ _ (by omega)]
    have h1 : min all_slices.length (min all_slices.length (idx + spp) + c * spp)
        = min all_slices.length (idx + (c + 1) * spp) := by
      have h2 : (c + 1) * spp = c * spp + spp := by ring
      rw [h2]
      generalize c * spp = X
      omega
    rw [h1]
    rfl

theorem pageWriteIter_length (all_slices : List Slice) (ph : Slice) (spp : Nat) :
    ∀ (c : Nat) (grid : List (List Slice)) (p idx : Nat),
      (pageWriteIter all_slices ph spp grid p c idx).length = grid.length := by
  intro c
  induction c with
  | zero => intro grid p idx; rfl
  | succ c ih =>
    intro grid p idx
    rw [pageWriteIter, ih]
    exact length_modifyAt grid p _

theorem valsAt_min_add (all_slices : List Slice) (ph : Slice) (spp x m : Nat) :
    valsAt all_slices ph spp (min all_slices.length x + m)
      = valsAt all_slices ph spp (x + m) := by
  unfold valsAt
  apply List.map_congr_left
  intro r _
  have h1 : min all_slices.length x + m + r = min all_slices.length x + (m + r) := by omega
  have h2 : x + m + r = x + (m + r) := by omega
  rw [h1, h2, tsVal_min_add]

theorem pageWriteIter_getD (all_slices : List Slice) (ph : Slice) (spp : Nat) :
    ∀ (c : Nat) (grid : List (List Slice)) (p idx q : Nat),
      idx ≤ all_slices.length →
      (pageWriteIter all_slices ph spp grid p c idx).getD q []
        = if p ≤ q ∧ q < p + c ∧ q < grid.length
          then writeVals (grid.getD q []) 0
            (valsAt all_slices ph spp (idx + (q - p) * spp))
          else grid.getD q [] := by
  intro c
  induction c with
  | zero =>
    intro grid p idx q _
    rw [if_neg (by omega)]
    rfl
  | succ c ih =>
    intro grid p idx q hidx
    rw [pageWriteIter, ih _ (p + 1) _ q (by omega), length_modifyAt]
    by_cases hq : q = p
    · subst hq
      rw [if_neg (by omega)]
      by_cases hl : q < grid.length
      · rw [getD_modifyAt_same grid q _ [] hl, if_pos (by omega)]
        have h1 : (q - q) * spp = 0 := by
          have h2 : q - q = 0 := by omega
          rw [h2, Nat.zero_mul]
        rw [h1, Nat.add_zero]
      · rw [modifyAt_ge_length grid q _ (by omega), if_neg (by omega)]
    · rw [getD_modifyAt_ne grid p q _ [] hq]
      by_cases hc : p + 1 ≤ q ∧ q < p + 1 + c ∧ q < grid.length
      · rw [if_pos hc, if_pos (by omega)]
        obtain ⟨m, hm⟩ : ∃ m, q - p = m + 1 := ⟨q - p - 1, by omega⟩
        have h4 : q - (p + 1) = m := by omega
        rw [hm, h4, valsAt_min_add]
        have h3 : idx + spp + m * spp = idx + (m + 1) * spp := by ring
        rw [h3]
      · rw [if_neg hc, if_neg (by omega)]

theorem map_range_getD (f : Nat → α) (n q : Nat) (d : α) (h : q < n) :
    ((List.range n).map f).getD q d = f q := by
  have hlen : q < ((List.range n).map f).length := by simpa using h
  rw [List.getD_eq_getElem _ d hlen]
  simp

theorem ceil_mul_ge (T spp : Nat) (hspp : 0 < spp) :
    T ≤ ((T + spp - 1) / spp) * spp := by
  have h1 := Nat.div_add_mod (T + spp - 1) spp
  have h2 : (T + spp - 1) % spp < spp := Nat.mod_lt _ hspp
  rw [Nat.mul_comm]
  generalize hX : spp * ((T + spp - 1) / spp) = X at h1 ⊢
  omega

theorem ceil_exact (pc spp : Nat) (hspp : 0 < spp) :
    (pc * spp + spp - 1) / spp = pc := by
  have h1 : pc * spp + spp - 1 = spp * pc + (spp - 1) := by
    rw [Nat.mul_comm]
    omega
  rw [h1, Nat.mul_add_div hspp, Nat.div_eq_of_lt (show spp - 1 < spp by omega)]
  omega

theorem pageWriteIter_eq_chunked (all_slices : List Slice) (ph : Slice) (spp pc : Nat)
    (hspp : 0 < spp)
    (hpc : pc = (all_slices.length + spp - 1) / spp) :
    pageWriteIter all_slices ph spp
        (List.replicate pc (List.replicate spp ph)) 0 pc 0
      = chunked (all_slices ++ List.replicate (pc * spp - all_slices.length) ph) spp := by
  have hle : all_slices.length ≤ pc * spp := hpc ▸ ceil_mul_ge all_slices.length spp hspp
  set padded := all_slices ++ List.replicate (pc * spp - all_slices.length) ph with hpad
  have hplen : padded.length = pc * spp := by
    rw [hpad, List.length_append, List.length_replicate]
    omega
  have hclen : (chunked padded spp).length = pc := by
    unfold chunked
    rw [List.length_map, List.length_range, hplen, ceil_exact pc spp hspp]
  apply eq_of_getD _ _ [] ?_ ?_
  · rw [pageWriteIter_length, List.length_replicate, hclen]
  · intro q hq
    rw [pageWriteIter_length, List.length_replicate] at hq
    have hq1 : q * spp + spp ≤ pc * spp := by
      have h1 : (q + 1) * spp ≤ pc * spp := Nat.mul_le_mul_right spp (by omega)
      have h2 : (q + 1) * spp = q * spp + spp := by ring
      omega
    rw [pageWriteIter_getD all_slices ph spp pc _ 0 0 q (by omega)]
    rw [if_pos (by refine ⟨by omega, by omega, ?_⟩; rw [List.length_replicate]; exact hq)]
    rw [getD_replicate (List.replicate spp ph) [] pc q hq]
    rw [writeVals_full _ _ (by rw [List.length_replicate, valsAt_length])]
    rw [Nat.sub_zero, Nat.zero_add]
    have hrhs : (chunked padded spp).getD q [] = (padded.drop (q * spp)).take spp := by
      unfold chunked
      rw [hplen, ceil_exact pc spp hspp,
        map_range_getD (fun j => (padded.drop (j * spp)).take spp) pc q [] hq]
    rw [hrhs]
    apply eq_of_getD _ _ ph ?_ ?_
    · rw [valsAt_length, List.length_take, List.length_drop, hplen]
      omega
    · intro r hr
      rw [valsAt_length] at hr
      rw [getD_take _ spp r ph hr, getD_drop]
      have hlhs : (valsAt all_slices ph spp (q * spp)).getD r ph
          = tsVal all_slices ph (q * spp + r) := by
        unfold valsAt
        exact map_range_getD (fun s => tsVal all_slices ph (q * spp + s)) spp r ph hr
      rw [hlhs]
      by_cases hi : q * spp + r < all_slices.length
      · rw [tsVal, if_pos hi, hpad, List.getD_append _ _ ph _ hi]
      · rw [tsVal, if_neg hi, hpad, List.getD_append_right _ _ ph _ (by omega)]
        rw [getD_replicate ph ph _ _ (by omega)]

/-- Spec-side definition, following the specification's words for the
sequential layout: the slice stream is already the concatenation of all
sets' slices; chunk every `spp = slotsPerPage / sliceSize` slices into one
page, padding the final page's missing slices with full placeholder
slices (no input, no pages). -/
def sequential_pages_spec (all_slices : List Slice) (spp : Nat) (ph : Slice) :
    List (List Slice) :=
  if all_slices.length = 0 then []
  else
    chunked (all_slices
      ++ List.replicate (((all_slices.length + spp - 1) / spp) * spp - all_slices.length) ph)
      spp

theorem fill_stack_one (all_slices : List Slice) (ph : Slice) (spp rps pcount : Nat)
    (st : List (List Slice) × Nat) :
    fill_stack_loop all_slices ph spp rps pcount 0 1 st
      = fill_page_loop all_slices ph spp rps 0 0 pcount st := rfl

def c2items : List Item :=
  (List.range 7).map (fun i => { label := toString i, image := "im", meta := none })

def c2prep := prepare_sets [("A", c2items)] 1

def c2slices := collect_all_slices c2prep.1 1 ONEPIXEL c2prep.2

def c2result := group_slices_into_pages c2slices 6 1 ONEPIXEL 1 c2prep.2

/-- C2: under the sequential layout policy (`parity <= 1`, so a single
stack), the engine (1) concatenates all sets' slices in set iteration
order (`collect_all_slices`), and (2) `group_slices_into_pages` succeeds
and produces exactly the pages obtained by chunking that stream into runs
of `slotsPerPage / sliceSize` slices, the last chunk padded to a full page
with placeholder slices, each chunk turned into a page plan; (3)
concretely, with `slotsPerPage = 6`, `sliceSize = 1` and one set of 7
items it produces exactly 2 pages, and page 2 holds 1 real item followed
by 5 placeholder items. -/
theorem c2_sequential_layout :
    (∀ (processed_sets : List (String × List Item)) (ss : Nat) (placeholder : String)
        (lu : SetLookup),
      collect_all_slices processed_sets ss placeholder lu
        = processed_sets.flatMap (fun p => make_slices p.2 ss p.1 placeholder lu)) ∧
    (∀ (all_slices : List Slice) (slots ss : Nat) (placeholder : String) (parity : Int)
        (lu : SetLookup), parity ≤ 1 → 0 < slots / ss →
      group_slices_into_pages all_slices slots ss placeholder parity lu
        = some ((sequential_pages_spec all_slices (slots / ss)
              (make_placeholder_slice placeholder ss lu)).map
            (fun rows => build_page_plan rows 1 (slots / ss) ss), slots)) ∧
    c2result.map (fun r => r.1.length) = some 2 ∧
    c2result.map (fun r => (r.1.getD 1 default).items.map (fun it => (metaOf it).placeholder))
      = some [false, true, true, true, true, true] := by
  refine ⟨fun _ _ _ _ => rfl, ?_, by decide, by decide⟩
  intro all_slices slots ss placeholder parity lu hpar hdiv
  have hsc : max 1 parity.toNat = 1 := by omega
  simp only [group_slices_into_pages, hsc, gt_iff_lt, lt_self_iff_false, false_and, if_false]
  rw [if_neg (show ¬ slots / ss = 0 by omega)]
  by_cases htot : all_slices.length = 0
  · rw [if_pos htot]
    unfold sequential_pages_spec
    rw [if_pos htot]
    rfl
  · rw [if_neg htot]
    rw [fill_stack_one, fill_page_loop_char _ _ _ _ 0 _ 0 (by omega)]
    dsimp only
    have hle : all_slices.length
        ≤ ((all_slices.length + slots / ss - 1) / (slots / ss)) * (slots / ss) :=
      ceil_mul_ge _ _ hdiv
    rw [Nat.zero_add, Nat.min_eq_left hle]
    rw [if_neg (show ¬ all_slices.length < all_slices.length by omega)]
    rw [pageWriteIter_eq_chunked _ _ _ _ hdiv rfl]
    unfold sequential_pages_spec
    rw [if_neg htot]
    exact congrArg (fun x => some (x, slots))
      (enum_map_snd _ (fun x => build_page_plan x 1 (slots / ss) ss))

theorem c2_witness :
    (1 : Int) ≤ 1 ∧ 0 < 6 / 1 ∧
    group_slices_into_pages c2slices 6 1 ONEPIXEL 1 c2prep.2
      = some ((sequential_pages_spec c2slices (6 / 1)
            (make_placeholder_slice ONEPIXEL 1 c2prep.2)).map
          (fun rows => build_page_plan rows 1 (6 / 1) 1), 6) :=
  ⟨by decide, by decide,
    c2_sequential_layout.2.1 c2slices 6 1 ONEPIXEL 1 c2prep.2 (by decide) (by decide)⟩
